import Mathlib

set_option maxRecDepth 8000

/-!
Shallow embedding of the two fixed-arena allocators of `src/lab4`:
the first-fit free-list allocator (`alloc_free_list/free_list.c`) and the
McKusick–Karels buddy allocator (`alloc_mc_kusick/mc_kusick.c`).

Addresses are modelled as natural numbers (absolute addresses); all pointer
arithmetic of the C sources is offset arithmetic inside the caller-supplied
arena, so `Nat` arithmetic models it exactly on the no-overflow domain
(`size_t` overflow is an undefined-behavior domain per the contract).
Linked lists threaded through arena memory are modelled as Lean lists of
block descriptors; headers of allocated ("live") blocks are real memory
contents (`size`/order tag read back by `free`), so the model carries a
`live` list recording exactly those header contents.
-/

namespace Lab4

/-- `align_up` from `free_list.h` / `mc_kusick.c`: `(x + (a-1)) & ~(a-1)`.
For a power-of-two `a` the mask form equals clearing the low bits, i.e.
subtracting the remainder of `x + (a-1)` modulo `a`. -/
def align_up (x a : Nat) : Nat := (x + (a - 1)) - (x + (a - 1)) % a

theorem align_up_dvd (x a : Nat) : a ∣ align_up x a := by
  refine ⟨(x + (a - 1)) / a, ?_⟩
  have := Nat.mod_add_div (x + (a - 1)) a
  unfold align_up
  omega

theorem le_align_up (x a : Nat) (h : 0 < a) : x ≤ align_up x a := by
  have h1 : (x + (a - 1)) % a < a := Nat.mod_lt _ h
  unfold align_up
  omega

theorem align_up_lt (x a : Nat) (h : 0 < a) : align_up x a < x + a := by
  unfold align_up
  omega

/-- An aligned value is a fixed point of `align_up`. -/
theorem align_up_eq_self (x a : Nat) (h : 0 < a) (hd : a ∣ x) : align_up x a = x := by
  obtain ⟨q, rfl⟩ := hd
  unfold align_up
  have h1 : (a * q + (a - 1)) % a = a - 1 := by
    rw [Nat.add_comm, Nat.add_mul_mod_self_left]
    exact Nat.mod_eq_of_lt (by omega)
  omega

/-- Look up the in-memory header field recorded at address `a` among the
allocated-block records `(address, field)`. -/
def lookupAt : List (Nat × Nat) → Nat → Option Nat
  | [], _ => none
  | (b, v) :: rest, a => if b = a then some v else lookupAt rest a

/-- Drop the allocated-block record at address `a` (first occurrence). -/
def removeAt : List (Nat × Nat) → Nat → List (Nat × Nat)
  | [], _ => []
  | (b, v) :: rest, a => if b = a then rest else (b, v) :: removeAt rest a

theorem lookupAt_mem : ∀ {l : List (Nat × Nat)} {a v : Nat},
    lookupAt l a = some v → (a, v) ∈ l
  | [], _, _, h => by simp [lookupAt] at h
  | (b, s) :: rest, a, v, h => by
    unfold lookupAt at h
    by_cases hb : b = a
    · simp only [hb, if_true, Option.some.injEq] at h
      simp [hb, h]
    · simp only [hb, if_false] at h
      exact List.mem_cons_of_mem _ (lookupAt_mem h)

theorem removeAt_perm : ∀ {l : List (Nat × Nat)} {a v : Nat},
    lookupAt l a = some v → l.Perm ((a, v) :: removeAt l a)
  | [], _, _, h => by simp [lookupAt] at h
  | (b, s) :: rest, a, v, h => by
    unfold lookupAt at h
    by_cases hb : b = a
    · simp only [hb, if_true, Option.some.injEq] at h
      subst hb; subst h
      simp [removeAt]
    · simp only [hb, if_false] at h
      have ih := removeAt_perm h
      unfold removeAt
      simp only [hb, if_false]
      exact ((ih.cons (b, s)).trans (List.Perm.swap _ _ _))

/-- Removing the record at one address leaves lookups at any other
address unchanged. -/
theorem lookupAt_removeAt_ne : ∀ (l : List (Nat × Nat)) (a a' : Nat), a' ≠ a →
    lookupAt (removeAt l a) a' = lookupAt l a'
  | [], _, _, _ => rfl
  | (b, v) :: rest, a, a', h => by
    have hrm : removeAt ((b, v) :: rest) a =
        if b = a then rest else (b, v) :: removeAt rest a := rfl
    have hlk : lookupAt ((b, v) :: rest) a' =
        if b = a' then some v else lookupAt rest a' := rfl
    rw [hrm, hlk]
    by_cases hb : b = a
    · rw [if_pos hb, if_neg (show ¬ b = a' by omega)]
    · rw [if_neg hb]
      have hlk2 : lookupAt ((b, v) :: removeAt rest a) a' =
          if b = a' then some v else lookupAt (removeAt rest a) a' := rfl
      rw [hlk2]
      by_cases hb' : b = a'
      · rw [if_pos hb', if_pos hb']
      · rw [if_neg hb', if_neg hb']
        exact lookupAt_removeAt_ne rest a a' h

/-- Removals at distinct addresses commute. -/
theorem removeAt_comm : ∀ (l : List (Nat × Nat)) (a a' : Nat), a' ≠ a →
    removeAt (removeAt l a) a' = removeAt (removeAt l a') a
  | [], _, _, _ => rfl
  | (b, v) :: rest, a, a', h => by
    rw [show removeAt ((b, v) :: rest) a =
      if b = a then rest else (b, v) :: removeAt rest a from rfl]
    by_cases hb : b = a
    · rw [if_pos hb]
      rw [show removeAt ((b, v) :: rest) a' =
        if b = a' then rest else (b, v) :: removeAt rest a' from rfl]
      rw [if_neg (show ¬ b = a' by omega)]
      rw [show removeAt ((b, v) :: removeAt rest a') a =
        if b = a then removeAt rest a' else (b, v) :: removeAt (removeAt rest a') a from rfl]
      rw [if_pos hb]
    · rw [if_neg hb]
      rw [show removeAt ((b, v) :: rest) a' =
        if b = a' then rest else (b, v) :: removeAt rest a' from rfl]
      by_cases hb' : b = a'
      · rw [if_pos hb']
        rw [show removeAt ((b, v) :: removeAt rest a) a' =
          if b = a' then removeAt rest a
          else (b, v) :: removeAt (removeAt rest a) a' from rfl]
        rw [if_pos hb']
      · rw [if_neg hb']
        rw [show removeAt ((b, v) :: removeAt rest a) a' =
          if b = a' then removeAt rest a
          else (b, v) :: removeAt (removeAt rest a) a' from rfl]
        rw [show removeAt ((b, v) :: removeAt rest a') a =
          if b = a then removeAt rest a'
          else (b, v) :: removeAt (removeAt rest a') a from rfl]
        rw [if_neg hb', if_neg hb]
        rw [removeAt_comm rest a a' h]

/-! ## Free-list allocator (`alloc_free_list/free_list.c`)

Layout constants for the LP64 target the repository builds for:
`block_header { size_t size; block_header *next; int free; }` occupies
8 + 8 + 4 bytes padded to 24 (alignment 8); `Allocator { unsigned char
*base; size_t size; block_header *free_list; }` occupies 24 bytes.
Addresses are byte offsets from the arena base (`a->base`), which is also
where the descriptor lives, so the descriptor occupies `[0, flOff)`.

A block is a pair `(addr, size)`: a header at `addr` whose `size` field
(total bytes including the header) is `size`.  `freeList` is the in-memory
singly linked free list in its link (address) order; `live` records the
headers of allocated blocks (which are unlinked, `next = NULL`, `free = 0`).
Only free blocks are ever linked into the list, so the `p->free` tests of
the C code are identically true on list members and need no separate flag. -/

/-! ### Byte-interval predicates shared by both allocators -/

/-- Two blocks occupy disjoint byte ranges. -/
def DisjB (b c : Nat × Nat) : Prop := b.1 + b.2 ≤ c.1 ∨ c.1 + c.2 ≤ b.1

/-- `b` ends at or before `c` starts: the free-list order relation. -/
def gapR (b c : Nat × Nat) : Prop := b.1 + b.2 ≤ c.1

instance : IsTrans (Nat × Nat) gapR :=
  ⟨fun a b c hab hbc => by unfold gapR at *; omega⟩

theorem DisjB_symm {b c : Nat × Nat} (h : DisjB b c) : DisjB c b := h.symm

theorem gapR_disj {b c : Nat × Nat} (h : gapR b c) : DisjB b c := Or.inl h

/-- A sub-block of a block is disjoint from whatever the block is disjoint from. -/
theorem DisjB_sub {y b b' : Nat × Nat} (h : DisjB y b) (h1 : b.1 ≤ b'.1)
    (h2 : b'.1 + b'.2 ≤ b.1 + b.2) : DisjB y b' := by
  unfold DisjB at *; omega

/-- Disjointness from two exactly-adjacent blocks gives disjointness from their union. -/
theorem DisjB_union {y c d : Nat × Nat} (h1 : DisjB y c) (h2 : DisjB y d)
    (hadj : c.1 + c.2 = d.1) (hy : 0 < y.2) : DisjB y (c.1, c.2 + d.2) := by
  unfold DisjB at *; simp only at *; omega

/-- The block lies inside `[lo, hi)` and is nonempty. -/
def Within (lo hi : Nat) (b : Nat × Nat) : Prop := lo ≤ b.1 ∧ b.1 + b.2 ≤ hi ∧ 0 < b.2

def sumSz (l : List (Nat × Nat)) : Nat := (l.map Prod.snd).sum

theorem sumSz_append (l₁ l₂ : List (Nat × Nat)) : sumSz (l₁ ++ l₂) = sumSz l₁ + sumSz l₂ := by
  simp [sumSz]

theorem sumSz_cons (b : Nat × Nat) (l : List (Nat × Nat)) : sumSz (b :: l) = b.2 + sumSz l := by
  simp [sumSz]

theorem sumSz_perm {l₁ l₂ : List (Nat × Nat)} (h : l₁.Perm l₂) : sumSz l₁ = sumSz l₂ :=
  (h.map Prod.snd).sum_eq


namespace FL

def headerSize : Nat := 24

def descSize : Nat := 24

/-- Offset of the initial block header: `align_up(sizeof(Allocator), alignof(block_header))`. -/
def flOff : Nat := align_up descSize 8

/-- `alignof(max_align_t)` on the target. -/
def maxAlign : Nat := 16

structure State where
  size : Nat
  freeList : List (Nat × Nat)
  live : List (Nat × Nat)
deriving DecidableEq

/-- `allocator_create`: descriptor at the arena head, one free block spanning
the remainder.  The C code performs no size check (undefined below
`flOff + headerSize`); the model is meaningful for `flOff < size`. -/
def allocator_create (size : Nat) : State :=
  { size := size, freeList := [(flOff, size - flOff)], live := [] }

/-- Required total block size for a request: `align_up(size, alignof(max_align_t)) + sizeof(block_header)`. -/
def need (size : Nat) : Nat := align_up size maxAlign + headerSize

/-- The `while (p)` scan of `allocator_alloc` combined with `split_block`:
first block with `size >= need` is selected; it is split when it can host the
carved block plus another header and a 16-byte minimum payload; the selected
block is unlinked (the split tail replaces it in the list).  Returns the
selected block (with its final header size) and the new free list. -/
def allocGo (n : Nat) : List (Nat × Nat) → Option ((Nat × Nat) × List (Nat × Nat))
  | [] => none
  | (a, sz) :: rest =>
    if n ≤ sz then
      if n + headerSize + 16 ≤ sz then some ((a, n), (a + n, sz - n) :: rest)
      else some ((a, sz), rest)
    else
      match allocGo n rest with
      | none => none
      | some (blk, rest') => some (blk, (a, sz) :: rest')

/-- `allocator_alloc`: returns the payload pointer (just past the header) and
the post-state.  A failed request returns the state unchanged. -/
def allocator_alloc (st : State) (size : Nat) : Option Nat × State :=
  if size = 0 then (none, st)
  else
    match allocGo (need size) st.freeList with
    | none => (none, st)
    | some (blk, fl') =>
      (some (blk.1 + headerSize), { st with freeList := fl', live := blk :: st.live })

/-- Merge the incoming block `b` with the head of `l` when they are exactly
adjacent (`(unsigned char*)b + b->size == next`).  This is both the
successor-coalescing step and the predecessor-coalescing step of
`allocator_free` (the C code performs them by the same adjacency test). -/
def joinHead (b : Nat × Nat) : List (Nat × Nat) → List (Nat × Nat)
  | [] => [b]
  | d :: post => if b.1 + b.2 = d.1 then (b.1, b.2 + d.2) :: post else b :: d :: post

/-- Address-ordered insertion of a freed block followed by the two coalescing
passes of `allocator_free`: the block is linked before the first list member
with a not-smaller address (`while (p && p < b)`), merged with its list
successor if memory-adjacent, and then the walk from the head merges the list
predecessor with the (possibly already merged) block if memory-adjacent. -/
def insertFree (b : Nat × Nat) : List (Nat × Nat) → List (Nat × Nat)
  | [] => [b]
  | c :: rest =>
    if c.1 < b.1 then
      match rest with
      | [] => joinHead c [b]
      | c' :: _ =>
        if c'.1 < b.1 then c :: insertFree b rest
        else joinHead c (joinHead b rest)
    else joinHead b (c :: rest)

/-- `allocator_free`: recover the header at `ptr - headerSize`, mark it free
(remove it from the live headers) and insert it into the free list with
coalescing.  `free(NULL)` and pointers not previously returned by `alloc`
(an undefined-behavior domain per the contract) leave the model state
unchanged. -/
def allocator_free (st : State) (ptr : Nat) : State :=
  let a := ptr - headerSize
  match lookupAt st.live a with
  | none => st
  | some sz =>
    { st with live := removeAt st.live a,
              freeList := insertFree (a, sz) st.freeList }

inductive Op where
  | alloc : Nat → Op
  | free : Nat → Op
deriving DecidableEq

def step (st : State) : Op → State
  | .alloc n => (allocator_alloc st n).2
  | .free p => allocator_free st p

def run (st : State) (ops : List Op) : State := ops.foldl step st

/-- A call sequence respects the contract preconditions when every freed
pointer is (at that moment) the payload pointer of a live allocation:
it was returned by `alloc` on this handle and not freed since. -/
def validB : State → List Op → Bool
  | _, [] => true
  | st, op :: ops =>
    (match op with
     | .alloc _ => true
     | .free p => (lookupAt st.live (p - headerSize)).isSome) && validB (step st op) ops

/-- Global well-formedness: every block (free or live) lies in the arena past
the descriptor, all blocks are pairwise disjoint, the free list is in
address order, and the block sizes together with the descriptor overhead
account for the whole arena. -/
def WF (st : State) : Prop :=
  (∀ b ∈ st.freeList ++ st.live, Within flOff st.size b) ∧
  (st.freeList ++ st.live).Pairwise DisjB ∧
  st.freeList.Chain' gapR ∧
  sumSz st.freeList + sumSz st.live + flOff = st.size

theorem WF_create (size : Nat) (h : flOff < size) : WF (allocator_create size) := by
  refine ⟨?_, ?_, ?_, ?_⟩ <;>
    simp [allocator_create, Within, sumSz, flOff, align_up, descSize] at * <;> omega

/-- Structure of a successful first-fit scan: the free list splits as
`pre ++ chosen :: post` with every earlier block too small, and the result is
either the split of the chosen block or its removal. -/
theorem allocGo_eq_some {n : Nat} :
    ∀ {fl fl' : List (Nat × Nat)} {blk : Nat × Nat},
    allocGo n fl = some (blk, fl') →
    ∃ pre sz post, fl = pre ++ (blk.1, sz) :: post ∧ n ≤ sz ∧
      (∀ c ∈ pre, c.2 < n) ∧
      ((n + headerSize + 16 ≤ sz ∧ blk.2 = n ∧ fl' = pre ++ (blk.1 + n, sz - n) :: post) ∨
       (¬ n + headerSize + 16 ≤ sz ∧ blk.2 = sz ∧ fl' = pre ++ post))
  | [], _, _, h => by simp [allocGo] at h
  | (a, sz0) :: rest, fl', blk, h => by
    unfold allocGo at h
    by_cases hfit : n ≤ sz0
    · simp only [hfit, if_true] at h
      by_cases hsplit : n + headerSize + 16 ≤ sz0
      · simp only [hsplit, if_true, Option.some.injEq, Prod.mk.injEq] at h
        obtain ⟨hb, hfl⟩ := h
        subst hb; subst hfl
        exact ⟨[], sz0, rest, by simp, hfit, by simp, Or.inl ⟨hsplit, rfl, by simp⟩⟩
      · simp only [hsplit, if_false, Option.some.injEq, Prod.mk.injEq] at h
        obtain ⟨hb, hfl⟩ := h
        subst hb; subst hfl
        exact ⟨[], sz0, rest, by simp, hfit, by simp, Or.inr ⟨hsplit, rfl, by simp⟩⟩
    · simp only [hfit, if_false] at h
      cases heq : allocGo n rest with
      | none => rw [heq] at h; exact absurd h (by simp)
      | some res =>
        obtain ⟨blk2, rest'⟩ := res
        rw [heq] at h
        simp only [Option.some.injEq, Prod.mk.injEq] at h
        obtain ⟨hb, hfl⟩ := h
        obtain ⟨pre, sz, post, hdec, hle, hsmall, hcase⟩ := allocGo_eq_some (hb ▸ heq)
        refine ⟨(a, sz0) :: pre, sz, post, by simp [hdec], hle, ?_, ?_⟩
        · intro c hc
          rcases List.mem_cons.mp hc with rfl | hc
          · omega
          · exact hsmall c hc
        · rcases hcase with ⟨h1, h2, h3⟩ | ⟨h1, h2, h3⟩
          · exact Or.inl ⟨h1, h2, by simp [← hfl, h3]⟩
          · exact Or.inr ⟨h1, h2, by simp [← hfl, h3]⟩

theorem need_pos (n : Nat) : 0 < need n := by
  unfold need headerSize; omega

theorem need_ge (n : Nat) : n + headerSize ≤ need n := by
  have := le_align_up n maxAlign (by norm_num [maxAlign])
  unfold need; omega

/-- `allocator_alloc` preserves well-formedness. -/
theorem WF_alloc (st : State) (n : Nat) (h : WF st) : WF (allocator_alloc st n).2 := by
  unfold allocator_alloc
  by_cases h0 : n = 0
  · simpa [h0] using h
  · simp only [h0, if_false]
    cases heq : allocGo (need n) st.freeList with
    | none => simpa using h
    | some res =>
      obtain ⟨⟨A, B⟩, fl'⟩ := res
      show WF { st with freeList := fl', live := (A, B) :: st.live }
      obtain ⟨pre, sz, post, hdec, hle, -, hcase⟩ := allocGo_eq_some heq
      simp only at hdec hcase
      obtain ⟨hW, hP, hC, hS⟩ := h
      rw [hdec] at hW hP hC hS
      rw [show (pre ++ (A, sz) :: post) ++ st.live
            = pre ++ (A, sz) :: (post ++ st.live) by simp] at hW hP
      rw [List.pairwise_middle DisjB_symm, List.pairwise_cons] at hP
      obtain ⟨hdisj, hPrest⟩ := hP
      have hWc : Within flOff st.size (A, sz) := hW _ (by simp)
      obtain ⟨w1, w2, w3⟩ := hWc
      simp only at w1 w2 w3
      rw [List.chain'_append] at hC
      obtain ⟨hCpre, hCcons, hClink⟩ := hC
      rw [List.chain'_cons'] at hCcons
      obtain ⟨hChd, hCpost⟩ := hCcons
      rw [sumSz_append, sumSz_cons] at hS
      simp only at hS
      rcases hcase with ⟨hsp, hb2, hfl⟩ | ⟨hsp, hb2, hfl⟩
      all_goals subst hb2; subst hfl
      · -- split: the tail becomes a new free block in place of the chosen one
        refine ⟨?_, ?_, ?_, ?_⟩
        · intro b hb
          simp only [List.mem_append, List.mem_cons] at hb
          rcases hb with (hb | rfl | hb) | rfl | hb
          · exact hW b (by simp [hb])
          · exact ⟨by simp only; omega, by simp only; omega, by simp only; omega⟩
          · exact hW b (by simp [hb])
          · have := need_pos n
            exact ⟨by simp only; omega, by simp only; omega, by simp only; omega⟩
          · exact hW b (by simp [hb])
        · rw [show (pre ++ (A + need n, sz - need n) :: post) ++ ((A, need n) :: st.live)
                = pre ++ (A + need n, sz - need n) :: (post ++ (A, need n) :: st.live) by simp]
          rw [List.pairwise_middle DisjB_symm, List.pairwise_cons]
          constructor
          · intro y hy
            simp only [List.mem_append, List.mem_cons] at hy
            rcases hy with hy | hy | rfl | hy
            · exact DisjB_symm <| DisjB_sub (DisjB_symm (hdisj y (by simp [hy])))
                (by simp only; omega) (by simp only; omega)
            · exact DisjB_symm <| DisjB_sub (DisjB_symm (hdisj y (by simp [hy])))
                (by simp only; omega) (by simp only; omega)
            · exact Or.inr (by simp only; omega)
            · exact DisjB_symm <| DisjB_sub (DisjB_symm (hdisj y (by simp [hy])))
                (by simp only; omega) (by simp only; omega)
          · rw [show pre ++ (post ++ (A, need n) :: st.live)
                  = (pre ++ post) ++ (A, need n) :: st.live by simp]
            rw [List.pairwise_middle DisjB_symm, List.pairwise_cons]
            constructor
            · intro y hy
              have hy' : y ∈ pre ++ (post ++ st.live) := by
                simp only [List.mem_append] at hy ⊢; tauto
              exact DisjB_symm <| DisjB_sub (DisjB_symm (hdisj y hy'))
                (by simp only; omega) (by simp only; omega)
            · rw [show (pre ++ post) ++ st.live = pre ++ (post ++ st.live) by simp]
              exact hPrest
        · rw [List.chain'_append, List.chain'_cons']
          refine ⟨hCpre, ⟨?_, hCpost⟩, ?_⟩
          · intro y hy
            have := hChd y hy
            unfold gapR at *; simp only at *; omega
          · intro x hx y hy
            simp only [List.head?_cons, Option.mem_def, Option.some.injEq] at hy
            subst hy
            have := hClink x hx (A, sz) (by simp)
            unfold gapR at *; simp only at *; omega
        · rw [sumSz_append, sumSz_cons, sumSz_cons]
          simp only
          omega
      · -- whole block consumed
        refine ⟨?_, ?_, ?_, ?_⟩
        · intro b hb
          simp only [List.mem_append, List.mem_cons] at hb
          rcases hb with (hb | hb) | rfl | hb
          · exact hW b (by simp [hb])
          · exact hW b (by simp [hb])
          · exact ⟨w1, w2, w3⟩
          · exact hW b (by simp [hb])
        · rw [List.pairwise_middle DisjB_symm, List.pairwise_cons]
          constructor
          · intro y hy
            have hy' : y ∈ pre ++ (post ++ st.live) := by
              simp only [List.mem_append] at hy ⊢; tauto
            exact hdisj y hy'
          · rw [show (pre ++ post) ++ st.live = pre ++ (post ++ st.live) by simp]
            exact hPrest
        · rw [List.chain'_append]
          refine ⟨hCpre, hCpost, ?_⟩
          intro x hx y hy
          have h1 := hClink x hx (A, B) (by simp)
          have h2 := hChd y hy
          unfold gapR at *; simp only at *; omega
        · rw [sumSz_append, sumSz_cons]
          simp only
          omega

theorem DisjB_before {b c : Nat × Nat} (h : DisjB b c) (hle : c.1 ≤ b.1) (hb : 0 < b.2) :
    c.1 + c.2 ≤ b.1 := by
  unfold DisjB at h; omega

/-- Effect of one coalescing step: `joinHead b l` is a well-formed list
whenever `b` sorts before `l` and is disjoint from it; its size total is the
sum, and its head starts where `b` starts. -/
theorem joinHead_spec (lo hi : Nat) (b : Nat × Nat) (l : List (Nat × Nat))
    (hs : l.Chain' gapR)
    (hb : Within lo hi b)
    (hl : ∀ c ∈ l, Within lo hi c)
    (hgap : ∀ c ∈ l.head?, b.1 + b.2 ≤ c.1) :
    (joinHead b l).Chain' gapR ∧
    sumSz (joinHead b l) = b.2 + sumSz l ∧
    (∀ x ∈ joinHead b l, Within lo hi x) ∧
    (∀ y, 0 < y.2 → DisjB y b → (∀ c ∈ l, DisjB y c) → ∀ x ∈ joinHead b l, DisjB y x) ∧
    (∀ x ∈ (joinHead b l).head?, x.1 = b.1) := by
  obtain ⟨hb1, hb2, hb3⟩ := hb
  cases l with
  | nil =>
    refine ⟨by simp [joinHead], by simp [joinHead, sumSz], ?_, ?_, ?_⟩
    · intro x hx
      simp only [joinHead, List.mem_singleton] at hx
      exact hx ▸ ⟨hb1, hb2, hb3⟩
    · intro y _ hyb _ x hx
      simp only [joinHead, List.mem_singleton] at hx
      exact hx ▸ hyb
    · intro x hx
      simp only [joinHead, List.head?_cons, Option.mem_def, Option.some.injEq] at hx
      exact hx ▸ rfl
  | cons d post =>
    obtain ⟨hd1, hd2, hd3⟩ := hl d (by simp)
    rw [List.chain'_cons'] at hs
    obtain ⟨hsd, hspost⟩ := hs
    have hbd : b.1 + b.2 ≤ d.1 := hgap d (by simp)
    by_cases hadj : b.1 + b.2 = d.1
    · simp only [joinHead, hadj, if_true]
      refine ⟨?_, ?_, ?_, ?_, ?_⟩
      · rw [List.chain'_cons']
        refine ⟨?_, hspost⟩
        intro y hy
        have := hsd y hy
        unfold gapR at *; simp only at *; omega
      · rw [sumSz_cons, sumSz_cons]; simp only; omega
      · intro x hx
        rcases List.mem_cons.mp hx with rfl | hx
        · exact ⟨by simp only; omega, by simp only; omega, by simp only; omega⟩
        · exact hl x (by simp [hx])
      · intro y hy hyb hyl x hx
        rcases List.mem_cons.mp hx with rfl | hx
        · exact DisjB_union hyb (hyl d (by simp)) hadj hy
        · exact hyl x (by simp [hx])
      · intro x hx
        simp only [List.head?_cons, Option.mem_def, Option.some.injEq] at hx
        exact hx ▸ rfl
    · simp only [joinHead, hadj, if_false]
      refine ⟨?_, ?_, ?_, ?_, ?_⟩
      · rw [List.chain'_cons', List.chain'_cons']
        exact ⟨by simpa [gapR] using hbd, hsd, hspost⟩
      · rw [sumSz_cons]
      · intro x hx
        rcases List.mem_cons.mp hx with rfl | hx
        · exact ⟨hb1, hb2, hb3⟩
        · exact hl x hx
      · intro y _ hyb hyl x hx
        rcases List.mem_cons.mp hx with rfl | hx
        · exact hyb
        · exact hyl x hx
      · intro x hx
        simp only [List.head?_cons, Option.mem_def, Option.some.injEq] at hx
        exact hx ▸ rfl

theorem insertFree_nil (b : Nat × Nat) : insertFree b [] = [b] := rfl

theorem insertFree_one (b c : Nat × Nat) :
    insertFree b [c] = if c.1 < b.1 then joinHead c [b] else joinHead b [c] := rfl

theorem insertFree_cons2 (b c c' : Nat × Nat) (rest' : List (Nat × Nat)) :
    insertFree b (c :: c' :: rest') =
      if c.1 < b.1 then
        (if c'.1 < b.1 then c :: insertFree b (c' :: rest')
         else joinHead c (joinHead b (c' :: rest')))
      else joinHead b (c :: c' :: rest') := rfl

theorem insertFree_ge (b c : Nat × Nat) (rest : List (Nat × Nat)) (h : ¬ c.1 < b.1) :
    insertFree b (c :: rest) = joinHead b (c :: rest) := by
  cases rest
  · rw [insertFree_one, if_neg h]
  · rw [insertFree_cons2, if_neg h]

/-- Master lemma for `allocator_free`'s insert-and-coalesce: the result is
address ordered, conserves the byte total, stays inside the arena, remains
disjoint from everything disjoint from the inputs, and its head starts at
the freed block's address or at the old head's address. -/
theorem insertFree_spec (lo hi : Nat) (b : Nat × Nat) :
    ∀ fl : List (Nat × Nat),
    fl.Chain' gapR →
    (∀ c ∈ fl, DisjB b c) →
    Within lo hi b →
    (∀ c ∈ fl, Within lo hi c) →
    (insertFree b fl).Chain' gapR ∧
    sumSz (insertFree b fl) = b.2 + sumSz fl ∧
    (∀ x ∈ insertFree b fl, Within lo hi x) ∧
    (∀ y, 0 < y.2 → DisjB y b → (∀ c ∈ fl, DisjB y c) → ∀ x ∈ insertFree b fl, DisjB y x) ∧
    (∀ x ∈ (insertFree b fl).head?, x.1 = b.1 ∨ ∃ c, fl.head? = some c ∧ x.1 = c.1)
  | [], _, _, hb, _ => by
    obtain ⟨hb1, hb2, hb3⟩ := hb
    refine ⟨by simp [insertFree], by simp [insertFree, sumSz], ?_, ?_, ?_⟩
    · intro x hx
      simp only [insertFree, List.mem_singleton] at hx
      exact hx ▸ ⟨hb1, hb2, hb3⟩
    · intro y _ hyb _ x hx
      simp only [insertFree, List.mem_singleton] at hx
      exact hx ▸ hyb
    · intro x hx
      simp only [insertFree, List.head?_cons, Option.mem_def, Option.some.injEq] at hx
      exact Or.inl (hx ▸ rfl)
  | c :: rest, hs, hd, hb, hl => by
    obtain ⟨hb1, hb2, hb3⟩ := hb
    obtain ⟨hc1, hc2, hc3⟩ := hl c (by simp)
    have hcrest := List.chain'_cons'.mp hs
    by_cases hcb : c.1 < b.1
    · have hcend : c.1 + c.2 ≤ b.1 :=
        DisjB_before (hd c (by simp)) (by omega) hb3
      cases rest with
      | nil =>
        rw [insertFree_one, if_pos hcb]
        obtain ⟨j1, j2, j3, j4, j5⟩ := joinHead_spec lo hi c [b] (by simp)
          ⟨hc1, hc2, hc3⟩
          (by intro x hx; simp only [List.mem_singleton] at hx
              exact hx ▸ ⟨hb1, hb2, hb3⟩)
          (by intro x hx
              simp only [List.head?_cons, Option.mem_def, Option.some.injEq] at hx
              subst hx; exact hcend)
        refine ⟨j1, ?_, j3, ?_, ?_⟩
        · rw [j2, sumSz_cons, sumSz_cons]; simp [sumSz]; omega
        · intro y hy hyb hyl x hx
          refine j4 y hy (hyl c (by simp)) ?_ x hx
          intro z hz
          simp only [List.mem_singleton] at hz
          exact hz ▸ hyb
        · intro x hx
          exact Or.inr ⟨c, by simp, j5 x hx⟩
      | cons c' rest' =>
        obtain ⟨hp1, hp2, hp3⟩ := hl c' (by simp)
        by_cases hcb' : c'.1 < b.1
        · rw [insertFree_cons2, if_pos hcb, if_pos hcb']
          obtain ⟨i1, i2, i3, i4, i5⟩ := insertFree_spec lo hi b (c' :: rest')
            hcrest.2
            (by intro x hx; exact hd x (by simp [hx]))
            ⟨hb1, hb2, hb3⟩
            (by intro x hx; exact hl x (by simp [hx]))
          refine ⟨?_, ?_, ?_, ?_, ?_⟩
          · rw [List.chain'_cons']
            refine ⟨?_, i1⟩
            intro y hy
            rcases i5 y hy with h | ⟨e, he, hy1⟩
            · unfold gapR; omega
            · simp only [List.head?_cons, Option.some.injEq] at he
              subst he
              have := hcrest.1 c' (by simp)
              unfold gapR at *; omega
          · simp only [sumSz_cons, i2]; omega
          · intro x hx
            rcases List.mem_cons.mp hx with rfl | hx
            · exact ⟨hc1, hc2, hc3⟩
            · exact i3 x hx
          · intro y hy hyb hyl x hx
            rcases List.mem_cons.mp hx with rfl | hx
            · exact hyl _ (by simp)
            · exact i4 y hy hyb (fun z hz => hyl z (by simp [hz])) x hx
          · intro x hx
            simp only [List.head?_cons, Option.mem_def, Option.some.injEq] at hx
            exact Or.inr ⟨c, by simp, hx ▸ rfl⟩
        · rw [insertFree_cons2, if_pos hcb, if_neg hcb']
          have hbc' : b.1 + b.2 ≤ c'.1 :=
            DisjB_before (DisjB_symm (hd c' (by simp))) (by omega) hp3
          obtain ⟨i1, i2, i3, i4, i5⟩ := joinHead_spec lo hi b (c' :: rest')
            hcrest.2
            ⟨hb1, hb2, hb3⟩
            (by intro x hx; exact hl x (by simp [hx]))
            (by intro x hx
                simp only [List.head?_cons, Option.mem_def, Option.some.injEq] at hx
                subst hx; exact hbc')
          obtain ⟨j1, j2, j3, j4, j5⟩ := joinHead_spec lo hi c (joinHead b (c' :: rest'))
            i1
            ⟨hc1, hc2, hc3⟩
            i3
            (by intro x hx
                have := i5 x hx
                omega)
          refine ⟨j1, ?_, j3, ?_, ?_⟩
          · simp only [j2, i2, sumSz_cons]; omega
          · intro y hy hyb hyl x hx
            exact j4 y hy (hyl c (by simp))
              (i4 y hy hyb (fun z hz => hyl z (by simp [hz]))) x hx
          · intro x hx
            exact Or.inr ⟨c, by simp, j5 x hx⟩
    · rw [insertFree_ge b c rest hcb]
      have hbc : b.1 + b.2 ≤ c.1 :=
        DisjB_before (DisjB_symm (hd c (by simp))) (by omega) hc3
      obtain ⟨j1, j2, j3, j4, j5⟩ := joinHead_spec lo hi b (c :: rest)
        hs
        ⟨hb1, hb2, hb3⟩
        hl
        (by intro x hx
            simp only [List.head?_cons, Option.mem_def, Option.some.injEq] at hx
            subst hx; exact hbc)
      exact ⟨j1, j2, j3, j4, fun x hx => Or.inl (j5 x hx)⟩

/-- `allocator_free` preserves well-formedness. -/
theorem WF_free (st : State) (p : Nat) (h : WF st) : WF (allocator_free st p) := by
  have hgoal : allocator_free st p =
      match lookupAt st.live (p - headerSize) with
      | none => st
      | some sz => { st with live := removeAt st.live (p - headerSize),
                             freeList := insertFree (p - headerSize, sz) st.freeList } := rfl
  rw [hgoal]
  cases hl : lookupAt st.live (p - headerSize) with
  | none => exact h
  | some sz =>
    obtain ⟨hW, hP, hC, hS⟩ := h
    have hmem : (p - headerSize, sz) ∈ st.live := lookupAt_mem hl
    have hperm : st.live.Perm ((p - headerSize, sz) :: removeAt st.live (p - headerSize)) :=
      removeAt_perm hl
    rw [List.pairwise_append] at hP
    obtain ⟨hPf, hPl, hcross⟩ := hP
    have hPl' := (hperm.pairwise_iff DisjB_symm).mp hPl
    rw [List.pairwise_cons] at hPl'
    obtain ⟨hdl, hPl''⟩ := hPl'
    have hblive : Within flOff st.size (p - headerSize, sz) :=
      hW _ (List.mem_append_right _ hmem)
    obtain ⟨i1, i2, i3, i4, i5⟩ := insertFree_spec flOff st.size (p - headerSize, sz)
      st.freeList hC
      (fun c hc => DisjB_symm (hcross c hc _ hmem))
      hblive
      (fun c hc => hW c (List.mem_append_left _ hc))
    have hsub : ∀ y ∈ removeAt st.live (p - headerSize), y ∈ st.live := by
      intro y hy
      exact hperm.mem_iff.mpr (by simp [hy])
    refine ⟨?_, ?_, i1, ?_⟩
    · intro b hb
      rcases List.mem_append.mp hb with hb | hb
      · exact i3 b hb
      · exact hW b (List.mem_append_right _ (hsub b hb))
    · rw [List.pairwise_append]
      refine ⟨?_, hPl'', ?_⟩
      · exact (List.chain'_iff_pairwise.mp i1).imp gapR_disj
      · intro x hx y hy
        have hyl : y ∈ st.live := hsub y hy
        have hypos : 0 < y.2 := (hW y (List.mem_append_right _ hyl)).2.2
        exact DisjB_symm <| i4 y hypos (DisjB_symm (hdl y hy))
          (fun c hc => DisjB_symm (hcross c hc y hyl)) x hx
    · have hlive : sumSz st.live = sz + sumSz (removeAt st.live (p - headerSize)) := by
        rw [sumSz_perm hperm, sumSz_cons]
      simp only [i2]
      omega

theorem WF_step (st : State) (op : Op) (h : WF st) : WF (step st op) := by
  cases op with
  | alloc n => exact WF_alloc st n h
  | free p => exact WF_free st p h

/-- The well-formedness invariant holds after any call sequence. -/
theorem WF_run (ops : List Op) : ∀ st : State, WF st → WF (run st ops) := by
  induction ops with
  | nil => exact fun st h => h
  | cons op ops ih => exact fun st h => ih _ (WF_step st op h)

theorem run_size (ops : List Op) : ∀ st : State, (run st ops).size = st.size := by
  induction ops with
  | nil => exact fun _ => rfl
  | cons op ops ih =>
    intro st
    show (run (step st op) ops).size = st.size
    rw [ih]
    cases op with
    | alloc n =>
      show (allocator_alloc st n).2.size = st.size
      unfold allocator_alloc
      by_cases h0 : n = 0
      · rw [if_pos h0]
      · rw [if_neg h0]
        cases allocGo (need n) st.freeList with
        | none => rfl
        | some res => obtain ⟨blk, fl⟩ := res; rfl
    | free p =>
      show (allocator_free st p).size = st.size
      have heq : allocator_free st p =
          match lookupAt st.live (p - headerSize) with
          | none => st
          | some sz =>
            { st with live := removeAt st.live (p - headerSize),
                      freeList := insertFree (p - headerSize, sz) st.freeList } := rfl
      rw [heq]
      cases lookupAt st.live (p - headerSize) with
      | none => rfl
      | some sz => rfl

/-! ### First-fit characterization (the specification's wording of `alloc`) -/

/-- `allocator_alloc` as §4.1 of the specification words it: compute the
required size, scan the list in order for the first block of sufficient
size (`dropWhile` past the too-small ones), split it when the remainder can
host another header plus a 16-byte minimum payload (the tail re-linked in
place of the original), otherwise consume it whole; unlink it and return
the address just past its header. -/
def allocFirstFit (st : State) (size : Nat) : Option Nat × State :=
  if size = 0 then (none, st)
  else
    match st.freeList.dropWhile
        (fun b => decide (b.2 < align_up size maxAlign + headerSize)) with
    | [] => (none, st)
    | b :: rest =>
      if align_up size maxAlign + headerSize + headerSize + 16 ≤ b.2 then
        (some (b.1 + headerSize),
         { st with
           freeList :=
             st.freeList.takeWhile
               (fun b => decide (b.2 < align_up size maxAlign + headerSize)) ++
             (b.1 + (align_up size maxAlign + headerSize),
              b.2 - (align_up size maxAlign + headerSize)) :: rest,
           live := (b.1, align_up size maxAlign + headerSize) :: st.live })
      else
        (some (b.1 + headerSize),
         { st with
           freeList :=
             st.freeList.takeWhile
               (fun b => decide (b.2 < align_up size maxAlign + headerSize)) ++
             rest,
           live := (b.1, b.2) :: st.live })

theorem allocGo_firstfit (nd : Nat) : ∀ fl : List (Nat × Nat),
    allocGo nd fl =
      match fl.dropWhile (fun b => decide (b.2 < nd)) with
      | [] => none
      | b :: rest =>
        if nd + headerSize + 16 ≤ b.2 then
          some ((b.1, nd),
            fl.takeWhile (fun b => decide (b.2 < nd)) ++ (b.1 + nd, b.2 - nd) :: rest)
        else some ((b.1, b.2), fl.takeWhile (fun b => decide (b.2 < nd)) ++ rest)
  | [] => rfl
  | (a, sz) :: rest => by
    by_cases hfit : nd ≤ sz
    · have hp : (decide (sz < nd)) = false := by simp; omega
      rw [List.dropWhile_cons, List.takeWhile_cons]
      simp only [hp, if_false, Bool.false_eq_true]
      unfold allocGo
      rw [if_pos hfit]
      by_cases hsp : nd + headerSize + 16 ≤ sz
      · rw [if_pos hsp, if_pos hsp]
        rfl
      · rw [if_neg hsp, if_neg hsp]
        rfl
    · have hp : (decide (sz < nd)) = true := by simp; omega
      rw [List.dropWhile_cons, List.takeWhile_cons]
      simp only [hp, if_true]
      unfold allocGo
      rw [if_neg hfit]
      rw [allocGo_firstfit nd rest]
      cases rest.dropWhile (fun b => decide (b.2 < nd)) with
      | nil => rfl
      | cons b rest' =>
        by_cases hsp : nd + headerSize + 16 ≤ b.2
        · simp [hsp]
        · simp [hsp]

/-- The implementation's `alloc` computes exactly the specification's
first-fit-with-split description. -/
theorem alloc_eq_firstFit (st : State) (size : Nat) :
    allocator_alloc st size = allocFirstFit st size := by
  unfold allocator_alloc allocFirstFit
  by_cases h0 : size = 0
  · rw [if_pos h0, if_pos h0]
  rw [if_neg h0, if_neg h0]
  rw [show need size = align_up size maxAlign + headerSize from rfl]
  rw [allocGo_firstfit]
  cases st.freeList.dropWhile
      (fun b => decide (b.2 < align_up size maxAlign + headerSize)) with
  | nil => rfl
  | cons b rest =>
    by_cases hsp : align_up size maxAlign + headerSize + headerSize + 16 ≤ b.2
    · simp [hsp]
    · simp [hsp]

/-! ### Failure characterization -/

theorem allocGo_none (n : Nat) : ∀ fl : List (Nat × Nat),
    allocGo n fl = none ↔ ∀ b ∈ fl, b.2 < n
  | [] => by simp [allocGo]
  | (a, sz) :: rest => by
    unfold allocGo
    by_cases hfit : n ≤ sz
    · rw [if_pos hfit]
      constructor
      · intro h
        by_cases hsp : n + headerSize + 16 ≤ sz
        · rw [if_pos hsp] at h; exact absurd h (by simp)
        · rw [if_neg hsp] at h; exact absurd h (by simp)
      · intro h
        exact absurd (h (a, sz) (by simp)) (by simp only; omega)
    · rw [if_neg hfit]
      cases heq : allocGo n rest with
      | none =>
        simp only
        constructor
        · intro _ b hb
          rcases List.mem_cons.mp hb with rfl | hb
          · simp only; omega
          · exact ((allocGo_none n rest).mp heq) b hb
        · intro _; trivial
      | some res =>
        obtain ⟨blk, rest'⟩ := res
        simp only
        constructor
        · intro h; exact absurd h (by simp)
        · intro h
          have := (allocGo_none n rest).mpr (fun b hb => h b (by simp [hb]))
          rw [this] at heq
          exact absurd heq (by simp)

/-! ### Coalescing support: exact output of `insertFree` around a hole -/

/-- Plain address-sorted insertion without coalescing: the reference shape
for stating that coalescing produced exactly one merged block. -/
def insertPlain (b : Nat × Nat) : List (Nat × Nat) → List (Nat × Nat)
  | [] => [b]
  | c :: rest => if c.1 < b.1 then c :: insertPlain b rest else b :: c :: rest

theorem joinHead_head1 (b : Nat × Nat) (l : List (Nat × Nat)) :
    ∀ x ∈ (joinHead b l).head?, x.1 = b.1 := by
  cases l with
  | nil => intro x hx; simp only [joinHead, List.head?_cons, Option.mem_def,
      Option.some.injEq] at hx; exact hx ▸ rfl
  | cons d post =>
    intro x hx
    have heq : joinHead b (d :: post) =
        if b.1 + b.2 = d.1 then (b.1, b.2 + d.2) :: post else b :: d :: post := rfl
    rw [heq] at hx
    by_cases hadj : b.1 + b.2 = d.1
    · rw [if_pos hadj] at hx
      simp only [List.head?_cons, Option.mem_def, Option.some.injEq] at hx
      exact hx ▸ rfl
    · rw [if_neg hadj] at hx
      simp only [List.head?_cons, Option.mem_def, Option.some.injEq] at hx
      exact hx ▸ rfl

/-- Insertion and coalescing skip over a prefix of blocks that end strictly
before the freed block starts. -/
theorem insertFree_skip (b : Nat × Nat) :
    ∀ (pre q : List (Nat × Nat)),
    (∀ c ∈ pre, c.1 < b.1 ∧ c.1 + c.2 ≠ b.1) →
    insertFree b (pre ++ q) = pre ++ insertFree b q
  | [], q, _ => rfl
  | c :: pre', q, h => by
    obtain ⟨hc1, hc2⟩ := h c (by simp)
    cases pre' with
    | nil =>
      cases q with
      | nil =>
        show insertFree b [c] = [c] ++ [b]
        rw [insertFree_one, if_pos hc1]
        show joinHead c [b] = [c, b]
        have hjc : joinHead c [b] =
            if c.1 + c.2 = b.1 then [(c.1, c.2 + b.2)] else [c, b] := rfl
        rw [hjc, if_neg hc2]
      | cons c'' q' =>
        rw [List.singleton_append, insertFree_cons2, if_pos hc1]
        by_cases hcb : c''.1 < b.1
        · rw [if_pos hcb]; rfl
        · rw [if_neg hcb]
          rw [show insertFree b (c'' :: q') = joinHead b (c'' :: q') from
            insertFree_ge b c'' q' hcb]
          show joinHead c (joinHead b (c'' :: q')) = c :: joinHead b (c'' :: q')
          cases hj : joinHead b (c'' :: q') with
          | nil => rfl
          | cons d tail =>
            have hd1 : d.1 = b.1 := joinHead_head1 b (c'' :: q') d (by rw [hj]; rfl)
            have hjc : joinHead c (d :: tail) =
                if c.1 + c.2 = d.1 then (c.1, c.2 + d.2) :: tail
                else c :: d :: tail := rfl
            rw [hjc, if_neg (by omega)]
    | cons c' pre'' =>
      obtain ⟨hc1', _⟩ := h c' (by simp)
      rw [List.cons_append, List.cons_append, insertFree_cons2, if_pos hc1,
        if_pos hc1']
      rw [← List.cons_append c' pre'' q]
      rw [insertFree_skip b (c' :: pre'') q (fun x hx => h x (by simp [hx]))]
      rfl

theorem insertPlain_skip (b : Nat × Nat) :
    ∀ (pre q : List (Nat × Nat)), (∀ c ∈ pre, c.1 < b.1) →
    insertPlain b (pre ++ q) = pre ++ insertPlain b q
  | [], q, _ => rfl
  | c :: pre', q, h => by
    rw [List.cons_append]
    have hstep : insertPlain b (c :: (pre' ++ q)) =
        if c.1 < b.1 then c :: insertPlain b (pre' ++ q)
        else b :: c :: (pre' ++ q) := rfl
    rw [hstep, if_pos (h c (by simp))]
    rw [insertPlain_skip b pre' q (fun x hx => h x (by simp [hx]))]
    rfl

/-- Inserting a block that starts past the end of every list member simply
prepends it (no coalescing). -/
theorem insertFree_far (b : Nat × Nat) :
    ∀ post : List (Nat × Nat), (∀ c ∈ post, b.1 + b.2 < c.1) →
    insertFree b post = b :: post
  | [], _ => rfl
  | d :: post', h => by
    have hd := h d (by simp)
    rw [insertFree_ge b d post' (by omega)]
    show joinHead b (d :: post') = b :: d :: post'
    rw [show joinHead b (d :: post') =
      if b.1 + b.2 = d.1 then (b.1, b.2 + d.2) :: post' else b :: d :: post' from rfl]
    rw [if_neg (by omega)]

/-- Freeing the successor of a free head block merges the two. -/
theorem insertFree_merge_succ (a s1 s2 : Nat) (post : List (Nat × Nat)) :
    insertFree (a, s1) ((a + s1, s2) :: post) = (a, s1 + s2) :: post := by
  rw [insertFree_ge (a, s1) (a + s1, s2) post (show ¬ a + s1 < a by omega)]
  show joinHead (a, s1) ((a + s1, s2) :: post) = (a, s1 + s2) :: post
  rw [show joinHead (a, s1) ((a + s1, s2) :: post) =
    if a + s1 = a + s1 then (a, s1 + s2) :: post
    else (a, s1) :: (a + s1, s2) :: post from rfl]
  rw [if_pos rfl]

/-- Freeing the predecessor-adjacent block of a free head block merges the
two (the head walk's predecessor-coalescing case). -/
theorem insertFree_adjacent (a s1 s2 : Nat) (post : List (Nat × Nat)) (hs1 : 0 < s1)
    (hpost : ∀ c ∈ post, a + s1 + s2 < c.1) :
    insertFree (a + s1, s2) ((a, s1) :: post) = (a, s1 + s2) :: post := by
  cases post with
  | nil =>
    rw [insertFree_one, if_pos (show a < a + s1 by omega)]
    rw [show joinHead (a, s1) [(a + s1, s2)] =
      if a + s1 = a + s1 then [(a, s1 + s2)] else [(a, s1), (a + s1, s2)] from rfl]
    rw [if_pos rfl]
  | cons d post' =>
    have hd := hpost d (by simp)
    rw [insertFree_cons2, if_pos (show a < a + s1 by omega),
      if_neg (show ¬ d.1 < a + s1 by omega)]
    rw [show joinHead (a + s1, s2) (d :: post') =
      if a + s1 + s2 = d.1 then (a + s1, s2 + d.2) :: post'
      else (a + s1, s2) :: d :: post' from rfl]
    rw [if_neg (by omega)]
    rw [show joinHead (a, s1) ((a + s1, s2) :: d :: post') =
      if a + s1 = a + s1 then (a, s1 + s2) :: d :: post'
      else (a, s1) :: (a + s1, s2) :: d :: post' from rfl]
    rw [if_pos rfl]

/-- Freeing two memory-adjacent live blocks, in either order, produces the
same state, and its free list holds exactly one block spanning both
footprints in place of the pair. -/
theorem free_adjacent_pair (st : State) (a s1 s2 : Nat) (pre post : List (Nat × Nat))
    (hfl : st.freeList = pre ++ post)
    (hpre : ∀ c ∈ pre, c.1 + c.2 < a)
    (hpost : ∀ c ∈ post, a + s1 + s2 < c.1)
    (hs1 : 0 < s1)
    (h1 : lookupAt st.live a = some s1)
    (h2 : lookupAt st.live (a + s1) = some s2) :
    run st [Op.free (a + headerSize), Op.free (a + s1 + headerSize)] =
      run st [Op.free (a + s1 + headerSize), Op.free (a + headerSize)] ∧
    (run st [Op.free (a + headerSize), Op.free (a + s1 + headerSize)]).freeList =
      pre ++ (a, s1 + s2) :: post := by
  have hne : a + s1 ≠ a := by omega
  have hskip1 : ∀ c ∈ pre, c.1 < a ∧ c.1 + c.2 ≠ a := by
    intro c hc
    have h := hpre c hc
    exact ⟨by omega, by omega⟩
  have hskip2 : ∀ c ∈ pre, c.1 < a + s1 ∧ c.1 + c.2 ≠ a + s1 := by
    intro c hc
    have h := hpre c hc
    exact ⟨by omega, by omega⟩
  have hsub1 : a + headerSize - headerSize = a := by omega
  have hsub2 : a + s1 + headerSize - headerSize = a + s1 := by omega
  have hf1 : allocator_free st (a + headerSize) =
      { st with live := removeAt st.live a,
                freeList := insertFree (a, s1) st.freeList } := by
    have heq : allocator_free st (a + headerSize) =
        match lookupAt st.live (a + headerSize - headerSize) with
        | none => st
        | some sz =>
          { st with live := removeAt st.live (a + headerSize - headerSize),
                    freeList := (insertFree (a + headerSize - headerSize, sz)
                      st.freeList) } := rfl
    rw [heq, hsub1, h1]
  have hf1' : allocator_free st (a + s1 + headerSize) =
      { st with live := removeAt st.live (a + s1),
                freeList := insertFree (a + s1, s2) st.freeList } := by
    have heq : allocator_free st (a + s1 + headerSize) =
        match lookupAt st.live (a + s1 + headerSize - headerSize) with
        | none => st
        | some sz =>
          { st with live := removeAt st.live (a + s1 + headerSize - headerSize),
                    freeList := (insertFree (a + s1 + headerSize - headerSize, sz)
                      st.freeList) } := rfl
    rw [heq, hsub2, h2]
  have hins1 : insertFree (a, s1) st.freeList = pre ++ (a, s1) :: post := by
    rw [hfl, insertFree_skip (a, s1) pre post hskip1]
    rw [insertFree_far (a, s1) post (by
      intro c hc
      have h := hpost c hc
      show a + s1 < c.1
      omega)]
  have hins1' : insertFree (a + s1, s2) st.freeList = pre ++ (a + s1, s2) :: post := by
    rw [hfl, insertFree_skip (a + s1, s2) pre post hskip2]
    rw [insertFree_far (a + s1, s2) post (by
      intro c hc
      have h := hpost c hc
      show a + s1 + s2 < c.1
      omega)]
  have hrunA : run st [Op.free (a + headerSize), Op.free (a + s1 + headerSize)] =
      { st with live := removeAt (removeAt st.live a) (a + s1),
                freeList := pre ++ (a, s1 + s2) :: post } := by
    show allocator_free (allocator_free st (a + headerSize)) (a + s1 + headerSize) = _
    rw [hf1, hins1]
    have heq : allocator_free
        { st with live := removeAt st.live a, freeList := pre ++ (a, s1) :: post }
        (a + s1 + headerSize) =
        match lookupAt (removeAt st.live a) (a + s1 + headerSize - headerSize) with
        | none =>
          { st with live := removeAt st.live a, freeList := pre ++ (a, s1) :: post }
        | some sz =>
          { st with
            live := removeAt (removeAt st.live a) (a + s1 + headerSize - headerSize),
            freeList := (insertFree (a + s1 + headerSize - headerSize, sz)
              (pre ++ (a, s1) :: post)) } := rfl
    rw [heq, hsub2, lookupAt_removeAt_ne st.live a (a + s1) hne, h2]
    show { st with
             live := removeAt (removeAt st.live a) (a + s1),
             freeList := (insertFree (a + s1, s2) (pre ++ (a, s1) :: post)) } = _
    rw [insertFree_skip (a + s1, s2) pre ((a, s1) :: post) hskip2]
    rw [insertFree_adjacent a s1 s2 post hs1 hpost]
  have hrunB : run st [Op.free (a + s1 + headerSize), Op.free (a + headerSize)] =
      { st with live := removeAt (removeAt st.live (a + s1)) a,
                freeList := pre ++ (a, s1 + s2) :: post } := by
    show allocator_free (allocator_free st (a + s1 + headerSize)) (a + headerSize) = _
    rw [hf1', hins1']
    have heq : allocator_free
        { st with live := removeAt st.live (a + s1),
                  freeList := pre ++ (a + s1, s2) :: post }
        (a + headerSize) =
        match lookupAt (removeAt st.live (a + s1)) (a + headerSize - headerSize) with
        | none =>
          { st with live := removeAt st.live (a + s1),
                    freeList := pre ++ (a + s1, s2) :: post }
        | some sz =>
          { st with
            live := removeAt (removeAt st.live (a + s1)) (a + headerSize - headerSize),
            freeList := (insertFree (a + headerSize - headerSize, sz)
              (pre ++ (a + s1, s2) :: post)) } := rfl
    rw [heq, hsub1, lookupAt_removeAt_ne st.live (a + s1) a (by omega), h1]
    show { st with
             live := removeAt (removeAt st.live (a + s1)) a,
             freeList := (insertFree (a, s1) (pre ++ (a + s1, s2) :: post)) } = _
    rw [insertFree_skip (a, s1) pre ((a + s1, s2) :: post) hskip1]
    rw [insertFree_merge_succ a s1 s2 post]
  refine ⟨?_, by rw [hrunA]⟩
  rw [hrunA, hrunB, removeAt_comm st.live a (a + s1) hne]

/-! ### Success / failure characterization of `alloc` (returned pointer) -/

theorem allocGo_some_ge (n : Nat) : ∀ (fl : List (Nat × Nat)) (blk : Nat × Nat)
    (fl' : List (Nat × Nat)), allocGo n fl = some (blk, fl') → n ≤ blk.2
  | [], blk, fl', h => by simp [allocGo] at h
  | (a, sz) :: rest, blk, fl', h => by
    rw [show allocGo n ((a, sz) :: rest) =
      (if n ≤ sz then
        if n + headerSize + 16 ≤ sz then some ((a, n), (a + n, sz - n) :: rest)
        else some ((a, sz), rest)
      else match allocGo n rest with
        | none => none
        | some (blk, rest') => some (blk, (a, sz) :: rest')) from rfl] at h
    by_cases hfit : n ≤ sz
    · rw [if_pos hfit] at h
      by_cases hsp : n + headerSize + 16 ≤ sz
      · rw [if_pos hsp] at h
        simp only [Option.some.injEq, Prod.mk.injEq] at h
        obtain ⟨rfl, -⟩ := h
        exact le_refl n
      · rw [if_neg hsp] at h
        simp only [Option.some.injEq, Prod.mk.injEq] at h
        obtain ⟨rfl, -⟩ := h
        exact hfit
    · rw [if_neg hfit] at h
      cases hrec : allocGo n rest with
      | none =>
        rw [hrec] at h
        exact absurd h (by simp)
      | some res =>
        obtain ⟨blk0, rest0⟩ := res
        rw [hrec] at h
        simp only [Option.some.injEq, Prod.mk.injEq] at h
        obtain ⟨rfl, -⟩ := h
        exact allocGo_some_ge n rest blk0 rest0 hrec

/-- `alloc` fails exactly on a zero request or when no free block is large
enough; on success the returned pointer points just past the header of a
block recorded live whose payload capacity covers the request. -/
theorem alloc_success_spec (st : State) (n : Nat) :
    ((allocator_alloc st n).1 = none ↔ (n = 0 ∨ ∀ b ∈ st.freeList, b.2 < need n)) ∧
    (∀ p, (allocator_alloc st n).1 = some p →
      ∃ blk : Nat × Nat, p = blk.1 + headerSize ∧ n + headerSize ≤ blk.2 ∧
        (allocator_alloc st n).2.live = blk :: st.live) := by
  have heq : allocator_alloc st n =
      (if n = 0 then (none, st)
       else match allocGo (need n) st.freeList with
       | none => (none, st)
       | some (blk, fl') =>
         (some (blk.1 + headerSize),
          { st with freeList := fl', live := blk :: st.live })) := rfl
  rw [heq]
  by_cases h0 : n = 0
  · rw [if_pos h0]
    exact ⟨by simp [h0], fun p hp => by simp at hp⟩
  rw [if_neg h0]
  cases hgo : allocGo (need n) st.freeList with
  | none =>
    refine ⟨⟨fun _ => Or.inr ((allocGo_none (need n) st.freeList).mp hgo), fun _ => rfl⟩,
      fun p hp => by simp at hp⟩
  | some res =>
    obtain ⟨blk, fl'⟩ := res
    constructor
    · simp only
      constructor
      · intro h
        exact absurd h (by simp)
      · rintro (h | h)
        · exact absurd h h0
        · rw [(allocGo_none (need n) st.freeList).mpr h] at hgo
          exact absurd hgo (by simp)
    · intro p hp
      simp only [Option.some.injEq] at hp
      refine ⟨blk, hp.symm, ?_, rfl⟩
      have hge := allocGo_some_ge (need n) st.freeList blk fl' hgo
      have := need_ge n
      omega

end FL

/-! ## Buddy allocator (`alloc_mc_kusick/mc_kusick.c`)

State: `base`/`size` as supplied to `create`, the `min_order`/`max_order`
size-class bounds, the 64 intrusive free lists indexed by order (modelled as
a function from order to the list of block addresses in link order), and the
`live` records `(block address, order)` of the `uint16_t` order tags written
at the start of each allocated block.

The C loops are bounded (`max_order ≤ 20` and every loop increments its
counter towards such a bound), so each is translated with an explicit
structural fuel argument that provably dominates the loop's iteration
count; with sufficient fuel the functions compute exactly what the loops do. -/

namespace MK

def tagSize : Nat := 2

/-- `sizeof(Allocator)` on LP64: base pointer, `size_t`, two `int`s,
64 pointers. -/
def sizeofAllocator : Nat := 8 + 8 + 4 + 4 + 64 * 8

def pow2 (k : Nat) : Nat := 2 ^ k

/-- Functional update of one free list. -/
def listsSet (fl : Nat → List Nat) (i : Nat) (l : List Nat) : Nat → List Nat :=
  fun j => if j = i then l else fl j

structure State where
  base : Nat
  size : Nat
  min_order : Nat
  max_order : Nat
  free_lists : Nat → List Nat
  live : List (Nat × Nat)

/-- `ilog2_ceil`: `while (v < x) { v <<= 1; k++; }` starting from `v = 1`,
`k = 0`; `x` iterations of fuel dominate since `v` doubles. -/
def ilog2Go (x : Nat) : Nat → Nat → Nat → Nat
  | 0, _, k => k
  | fuel + 1, v, k => if v < x then ilog2Go x fuel (v * 2) (k + 1) else k

def ilog2_ceil (x : Nat) : Nat := ilog2Go x x 1 0

/-- The `max_order` loop of `allocator_create`:
`while (max_order < 20 && pow2(max_order+1) <= usable) max_order++;`.
The `m < 20` guard bounds the loop by 20 iterations, so fuel 20 is exact. -/
def maxOrderGo (usable : Nat) : Nat → Nat → Nat
  | 0, m => m
  | fuel + 1, m =>
    if m < 20 ∧ pow2 (m + 1) ≤ usable then maxOrderGo usable fuel (m + 1) else m

/-- Seeding loop of `allocator_create`: pushes block `i` at
`arena + (i << max_order)` for `i = 0 .. blocks-1`; each push prepends,
so the final head is the highest-addressed block. -/
def seedGo (arena maxo : Nat) : Nat → List Nat
  | 0 => []
  | i + 1 => (arena + i * pow2 maxo) :: seedGo arena maxo i

/-- `allocator_create`.  Mirrors the C control flow; the `size - off`
subtraction is `size_t` arithmetic, so the model is faithful on the
no-underflow domain `off ≤ size` (below it the C stores the descriptor
outside the caller's memory, an undefined-behavior domain). -/
def allocator_create (base size : Nat) : Option State :=
  let off := align_up sizeofAllocator 16
  let usable := size - off
  if usable < 64 then none
  else
    let min_order := if pow2 4 < tagSize + 8 then ilog2_ceil (tagSize + 8) else 4
    let max_order := maxOrderGo usable 20 0
    if max_order < min_order then none
    else
      let arena := base + off
      let aligned := align_up arena (pow2 max_order)
      let align_pad := aligned - arena
      if usable ≤ align_pad then none
      else
        let usable2 := usable - align_pad
        let usable3 := usable2 - usable2 % pow2 max_order
        let blocks := usable3 / pow2 max_order
        some { base := base, size := size, min_order := min_order, max_order := max_order,
               free_lists := listsSet (fun _ => []) max_order (seedGo aligned max_order blocks),
               live := [] }

/-- `order_for`: smallest `k ≥ min_order` with `2^k ≥ size + sizeof(uint16_t)`.
`while (pow2(k) < need) k++;` — fuel `need` dominates since `2^k ≥ k + 1`. -/
def orderForGo (nd : Nat) : Nat → Nat → Nat
  | 0, k => k
  | fuel + 1, k => if pow2 k < nd then orderForGo nd fuel (k + 1) else k

def order_for (size min_order : Nat) : Nat :=
  orderForGo (size + tagSize) (size + tagSize) min_order

/-- `while (cur <= max_order && free_lists[cur] == NULL) cur++;` —
the guard bounds the loop, fuel `max_order + 2` dominates. -/
def findCurGo (fl : Nat → List Nat) (maxo : Nat) : Nat → Nat → Nat
  | 0, cur => cur
  | fuel + 1, cur =>
    if cur ≤ maxo ∧ fl cur = [] then findCurGo fl maxo fuel (cur + 1) else cur

/-- Split loop of `allocator_alloc`: `while (cur > k) { cur--; push upper
half at order cur; }`; `d` is the remaining number of halvings `cur - k`. -/
def splitDownGo (block k : Nat) : Nat → (Nat → List Nat) → (Nat → List Nat)
  | 0, fl => fl
  | d + 1, fl =>
    splitDownGo block k d (listsSet fl (k + d) ((block + pow2 (k + d)) :: fl (k + d)))

/-- `allocator_alloc`: rounds the request up to a size class, pops a block
from the smallest non-empty list of sufficient order, splits it down to the
target order keeping the lower half, writes the order tag, and returns the
address just past the tag. -/
def allocator_alloc (st : State) (size : Nat) : Option Nat × State :=
  if size = 0 then (none, st)
  else
    let k := order_for size st.min_order
    if st.max_order < k then (none, st)
    else
      let cur := findCurGo st.free_lists st.max_order (st.max_order + 2) k
      if st.max_order < cur then (none, st)
      else
        match st.free_lists cur with
        | [] => (none, st)
        | node :: rest =>
          (some (node + tagSize),
           { st with
               free_lists := splitDownGo node k (cur - k) (listsSet st.free_lists cur rest),
               live := (node, k) :: st.live })

/-- `list_remove`: unlink the first node equal to `a`. -/
def list_remove : List Nat → Nat → List Nat
  | [], _ => []
  | x :: rest, a => if x = a then rest else x :: list_remove rest a

/-- Merge loop of `allocator_free`.  The buddy address is
`base + ((block - base) XOR 2^k)` — the XOR is taken on the offset from
`A->base`, exactly as in the C.  If the buddy is on the order-`k` list it is
removed and merging continues from `min(block, buddy)` at order `k + 1`;
when the incremented order would exceed `max_order` the merged block is
pushed at `k` (the C pushes at `k-1` after `k++`) and the loop stops;
if no buddy is found the block is pushed at the current order. -/
def freeLoopGo (base maxo : Nat) : Nat → (Nat → List Nat) → Nat → Nat → (Nat → List Nat)
  | 0, fl, _, _ => fl
  | fuel + 1, fl, block, k =>
    let buddy := base + ((block - base) ^^^ pow2 k)
    if (fl k).contains buddy then
      let fl' := listsSet fl k (list_remove (fl k) buddy)
      let block' := min buddy block
      if maxo < k + 1 then listsSet fl' k (block' :: fl' k)
      else freeLoopGo base maxo fuel fl' block' (k + 1)
    else listsSet fl k (block :: fl k)

/-- `allocator_free`: read the order tag just before the pointer and run the
merge loop.  Pointers not previously returned by `alloc` (undefined behavior
per the contract) leave the model state unchanged. -/
def allocator_free (st : State) (ptr : Nat) : State :=
  let p := ptr - tagSize
  match lookupAt st.live p with
  | none => st
  | some k =>
    { st with
        live := removeAt st.live p,
        free_lists := freeLoopGo st.base st.max_order (st.max_order + 2) st.free_lists p k }

inductive Op where
  | alloc : Nat → Op
  | free : Nat → Op
deriving DecidableEq

def step (st : State) : Op → State
  | .alloc n => (allocator_alloc st n).2
  | .free p => allocator_free st p

def run (st : State) (ops : List Op) : State := ops.foldl step st

/-- Precondition-respecting call sequences: every freed pointer is the
payload pointer of a currently live allocation. -/
def validB : State → List Op → Bool
  | _, [] => true
  | st, op :: ops =>
    (match op with
     | .alloc _ => true
     | .free p => (lookupAt st.live (p - tagSize)).isSome) && validB (step st op) ops

/-! ### Arithmetic facts about `pow2` and XOR with a power of two -/

theorem pow2_pos (k : Nat) : 0 < pow2 k := Nat.pos_pow_of_pos k (by omega)

theorem pow2_succ (k : Nat) : pow2 (k + 1) = 2 * pow2 k := by
  simp [pow2, Nat.pow_succ, Nat.mul_comm]

theorem pow2_le_pow2 {j k : Nat} (h : j ≤ k) : pow2 j ≤ pow2 k :=
  Nat.pow_le_pow_right (by omega) h

theorem pow2_dvd_pow2 {j k : Nat} (h : j ≤ k) : pow2 j ∣ pow2 k :=
  pow_dvd_pow 2 h

/-- XOR with `2^k` flips exactly bit `k`: it adds `2^k` when the bit is
clear and subtracts it when the bit is set. -/
theorem xor_pow2_eq (k : Nat) : ∀ r : Nat,
    r ^^^ pow2 k = if r / pow2 k % 2 = 0 then r + pow2 k else r - pow2 k := by
  induction k with
  | zero =>
    intro r
    have h1 : pow2 0 = Nat.bit true 0 := by simp [pow2, Nat.bit_val]
    conv_lhs => rw [← Nat.bit_decomp r, h1, Nat.xor_bit]
    have hr := Nat.bit_decomp r
    simp only [pow2, Nat.pow_zero, Nat.div_one]
    cases hb : r.bodd
    · have : r % 2 = 0 := by
        rw [← hr, hb, Nat.bit_mod_two]; rfl
      rw [if_pos this]
      rw [← hr, hb]
      simp [Nat.bit_val]
    · have : r % 2 = 1 := by
        rw [← hr, hb, Nat.bit_mod_two]; rfl
      rw [if_neg (by omega)]
      rw [← hr, hb]
      simp [Nat.bit_val]
  | succ k ih =>
    intro r
    have h2 : pow2 (k + 1) = Nat.bit false (pow2 k) := by
      simp [Nat.bit_val, pow2_succ]
    conv_lhs => rw [← Nat.bit_decomp r, h2, Nat.xor_bit]
    have hr := Nat.bit_decomp r
    have hdiv : r / pow2 (k + 1) = r.div2 / pow2 k := by
      rw [Nat.div2_val, pow2_succ, Nat.div_div_eq_div_mul, Nat.mul_comm]
    rw [ih r.div2, hdiv]
    have hval : r = 2 * r.div2 + r.bodd.toNat := by
      conv_lhs => rw [← hr]
      exact Nat.bit_val _ _
    by_cases hc : r.div2 / pow2 k % 2 = 0
    · rw [if_pos hc, if_pos hc]
      simp only [Bool.bne_false]
      rw [Nat.bit_val]
      rw [pow2_succ]
      omega
    · rw [if_neg hc, if_neg hc]
      simp only [Bool.bne_false]
      rw [Nat.bit_val]
      rw [pow2_succ]
      have hge : pow2 k ≤ r.div2 := by
        rcases Nat.eq_zero_or_pos (r.div2 / pow2 k) with h | h
        · exact absurd (by rw [h]) hc
        · exact (Nat.one_le_div_iff (pow2_pos k)).mp h
      omega

/-- The two buddy-merge cases: the partner is the adjacent block of the same
size, above or below. -/
theorem xor_pow2_cases (r k : Nat) :
    r ^^^ pow2 k = r + pow2 k ∨ (pow2 k ≤ r ∧ r ^^^ pow2 k = r - pow2 k) := by
  rw [xor_pow2_eq]
  by_cases hc : r / pow2 k % 2 = 0
  · exact Or.inl (by rw [if_pos hc])
  · refine Or.inr ⟨?_, by rw [if_neg hc]⟩
    rcases Nat.eq_zero_or_pos (r / pow2 k) with h | h
    · exact absurd (by rw [h]) hc
    · exact (Nat.one_le_div_iff (pow2_pos k)).mp h

/-! ### Flattening the free-list array into one block list -/

/-- All blocks held on free lists of order `< n`, as `(address, order)`
pairs. -/
def blocksUpTo (fl : Nat → List Nat) : Nat → List (Nat × Nat)
  | 0 => []
  | j + 1 => blocksUpTo fl j ++ (fl j).map (fun a => (a, j))

/-- Every block the allocator knows about: the free-list blocks of orders
`0 .. max_order` plus the live (allocated) blocks. -/
def blocksOf (st : State) : List (Nat × Nat) :=
  blocksUpTo st.free_lists (st.max_order + 1) ++ st.live

theorem mem_blocksUpTo {fl : Nat → List Nat} :
    ∀ {n : Nat} {x : Nat × Nat}, x ∈ blocksUpTo fl n ↔ x.2 < n ∧ x.1 ∈ fl x.2
  | 0, x => by simp [blocksUpTo]
  | n + 1, x => by
    simp only [blocksUpTo, List.mem_append, List.mem_map, mem_blocksUpTo]
    constructor
    · rintro (⟨h1, h2⟩ | ⟨a, ha, rfl⟩)
      · exact ⟨by omega, h2⟩
      · exact ⟨by omega, ha⟩
    · rintro ⟨h1, h2⟩
      rcases Nat.lt_or_ge x.2 n with h | h
      · exact Or.inl ⟨h, h2⟩
      · have hx2 : x.2 = n := by omega
        exact Or.inr ⟨x.1, hx2 ▸ h2, by rw [← hx2]⟩

theorem blocksUpTo_agree {fl fl' : Nat → List Nat} :
    ∀ {n : Nat}, (∀ j, j < n → fl j = fl' j) → blocksUpTo fl n = blocksUpTo fl' n
  | 0, _ => rfl
  | n + 1, h => by
    simp only [blocksUpTo]
    rw [blocksUpTo_agree (fun j hj => h j (by omega)), h n (by omega)]

theorem listsSet_at (fl : Nat → List Nat) (i : Nat) (l : List Nat) :
    listsSet fl i l i = l := by simp [listsSet]

theorem listsSet_ne {i j : Nat} (fl : Nat → List Nat) (l : List Nat) (h : j ≠ i) :
    listsSet fl i l j = fl j := by simp [listsSet, h]

/-- Pushing one node onto the order-`j` list prepends `(a, j)` to the
flattened block list, up to permutation. -/
theorem blocksUpTo_push {fl : Nat → List Nat} {j a : Nat} :
    ∀ {n : Nat}, j < n →
    (blocksUpTo (listsSet fl j (a :: fl j)) n).Perm ((a, j) :: blocksUpTo fl n)
  | 0, h => by omega
  | n + 1, h => by
    simp only [blocksUpTo]
    by_cases hj : j = n
    · subst hj
      rw [@blocksUpTo_agree _ fl _ (fun i hi => listsSet_ne fl _ (by omega))]
      rw [listsSet_at]
      simp only [List.map_cons]
      exact List.perm_middle
    · have hjn : j < n := by omega
      rw [listsSet_ne fl _ (Ne.symm hj)]
      exact (blocksUpTo_push hjn).append_right _

theorem list_remove_perm : ∀ {l : List Nat} {a : Nat}, a ∈ l →
    l.Perm (a :: list_remove l a)
  | [], a, h => by simp at h
  | x :: rest, a, h => by
    unfold list_remove
    by_cases hx : x = a
    · subst hx; simp
    · simp only [hx, if_false]
      have hm : a ∈ rest := by
        rcases List.mem_cons.mp h with rfl | hm
        · exact absurd rfl hx
        · exact hm
      exact ((list_remove_perm hm).cons x).trans (List.Perm.swap _ _ _)

/-- Removing a node from the order-`j` list removes `(a, j)` from the
flattened block list, up to permutation. -/
theorem blocksUpTo_remove {fl : Nat → List Nat} {j a : Nat} (ha : a ∈ fl j) :
    ∀ {n : Nat}, j < n →
    (blocksUpTo fl n).Perm ((a, j) :: blocksUpTo (listsSet fl j (list_remove (fl j) a)) n)
  | 0, h => by omega
  | n + 1, h => by
    simp only [blocksUpTo]
    by_cases hj : j = n
    · subst hj
      rw [@blocksUpTo_agree (listsSet fl j (list_remove (fl j) a)) fl _
            (fun i hi => listsSet_ne fl _ (by omega))]
      rw [listsSet_at]
      refine (List.Perm.append_left _ ((list_remove_perm ha).map _)).trans ?_
      simp only [List.map_cons]
      exact List.perm_middle
    · have hjn : j < n := by omega
      rw [listsSet_ne fl _ (Ne.symm hj)]
      exact (blocksUpTo_remove ha hjn).append_right _

/-- Popping the head of the order-`j` list. -/
theorem blocksUpTo_pop {fl : Nat → List Nat} {j a : Nat} {t : List Nat}
    (hfl : fl j = a :: t) {n : Nat} (h : j < n) :
    (blocksUpTo fl n).Perm ((a, j) :: blocksUpTo (listsSet fl j t) n) := by
  have := @blocksUpTo_remove fl j a (by rw [hfl]; simp) n h
  rwa [show list_remove (fl j) a = t by rw [hfl]; simp [list_remove]] at this

/-! ### The buddy invariant -/

/-- Byte view of an `(address, order)` block. -/
def toByte (x : Nat × Nat) : Nat × Nat := (x.1, pow2 x.2)

/-- Two buddy blocks occupy disjoint byte ranges. -/
def DisjR (x y : Nat × Nat) : Prop := DisjB (toByte x) (toByte y)

theorem DisjR_symm {x y : Nat × Nat} (h : DisjR x y) : DisjR y x := DisjB_symm h

/-- An individual block is well formed: its order is between `min_order` and
`max_order`, its bytes lie in the aligned arena `[lo, hi)`, and its offset
from the aligned arena start is a multiple of the minimum block size. -/
def GoodBlk (lo hi mino maxo : Nat) (x : Nat × Nat) : Prop :=
  mino ≤ x.2 ∧ x.2 ≤ maxo ∧ lo ≤ x.1 ∧ x.1 + pow2 x.2 ≤ hi ∧ pow2 mino ∣ (x.1 - lo)

/-- Total bytes covered by a block list. -/
def sumR (l : List (Nat × Nat)) : Nat := sumSz (l.map toByte)

theorem sumR_append (l₁ l₂ : List (Nat × Nat)) : sumR (l₁ ++ l₂) = sumR l₁ + sumR l₂ := by
  simp [sumR, sumSz]

theorem sumR_cons (b : Nat × Nat) (l : List (Nat × Nat)) :
    sumR (b :: l) = pow2 b.2 + sumR l := by
  simp [sumR, sumSz, toByte]

theorem sumR_perm {l₁ l₂ : List (Nat × Nat)} (h : l₁.Perm l₂) : sumR l₁ = sumR l₂ :=
  sumSz_perm (h.map toByte)

/-- Global invariant of the buddy allocator over the aligned arena
`[lo, hi)`: nothing above `max_order`, every block well formed, all blocks
pairwise disjoint, and the descriptor precedes the arena. -/
def Inv (lo hi : Nat) (st : State) : Prop :=
  st.base ≤ lo ∧
  (∀ j, st.max_order < j → st.free_lists j = []) ∧
  (∀ x ∈ blocksOf st, GoodBlk lo hi st.min_order st.max_order x) ∧
  (blocksOf st).Pairwise DisjR

/-! ### Loop characterizations -/

/-- With fuel dominating the remaining iterations, `orderForGo` computes the
least order `≥ k` whose block size reaches `nd`. -/
theorem orderForGo_spec (nd : Nat) :
    ∀ (fuel k : Nat), nd ≤ fuel + pow2 k →
      k ≤ orderForGo nd fuel k ∧ nd ≤ pow2 (orderForGo nd fuel k) ∧
      (∀ j, k ≤ j → j < orderForGo nd fuel k → pow2 j < nd)
  | 0, k, h => by
    unfold orderForGo
    exact ⟨le_refl _, by omega, fun j h1 h2 => by omega⟩
  | fuel + 1, k, h => by
    unfold orderForGo
    by_cases hc : pow2 k < nd
    · simp only [hc, if_true]
      have hstep : nd ≤ fuel + pow2 (k + 1) := by
        have h1 := pow2_succ k
        have h2 := pow2_pos k
        omega
      obtain ⟨h1, h2, h3⟩ := orderForGo_spec nd fuel (k + 1) hstep
      refine ⟨by omega, h2, ?_⟩
      intro j hj1 hj2
      rcases Nat.eq_or_lt_of_le hj1 with rfl | hlt
      · exact hc
      · exact h3 j (by omega) hj2
    · simp only [hc, if_false]
      exact ⟨le_refl _, by omega, fun j h1 h2 => by omega⟩

theorem order_for_spec (size mino : Nat) :
    mino ≤ order_for size mino ∧ size + tagSize ≤ pow2 (order_for size mino) ∧
    (∀ j, mino ≤ j → j < order_for size mino → pow2 j < size + tagSize) :=
  orderForGo_spec _ _ _ (by have := pow2_pos mino; omega)

/-- With fuel dominating the loop bound, `findCurGo` finds the first order
`≥ cur` (up to `maxo`) with a non-empty free list, or runs past `maxo`. -/
theorem findCurGo_spec (fl : Nat → List Nat) (maxo : Nat) :
    ∀ (fuel cur : Nat), maxo + 1 ≤ fuel + cur →
      cur ≤ findCurGo fl maxo fuel cur ∧
      (∀ j, cur ≤ j → j < findCurGo fl maxo fuel cur → fl j = []) ∧
      (findCurGo fl maxo fuel cur ≤ maxo → fl (findCurGo fl maxo fuel cur) ≠ [])
  | 0, cur, h => by
    unfold findCurGo
    exact ⟨le_refl _, fun j h1 h2 => by omega, fun hle => by omega⟩
  | fuel + 1, cur, h => by
    unfold findCurGo
    by_cases hc : cur ≤ maxo ∧ fl cur = []
    · rw [if_pos hc]
      obtain ⟨h1, h2, h3⟩ := findCurGo_spec fl maxo fuel (cur + 1) (by omega)
      refine ⟨by omega, ?_, h3⟩
      intro j hj1 hj2
      rcases Nat.eq_or_lt_of_le hj1 with rfl | hlt
      · exact hc.2
      · exact h2 j (by omega) hj2
    · rw [if_neg hc]
      refine ⟨le_refl _, fun j h1 h2 => by omega, fun hle => ?_⟩
      intro hemp
      exact hc ⟨hle, hemp⟩

/-- Indices outside `[k, k + d)` are untouched by the split loop. -/
theorem splitDownGo_untouched (block k : Nat) :
    ∀ (d : Nat) (fl : Nat → List Nat) (j : Nat), j < k ∨ k + d ≤ j →
      splitDownGo block k d fl j = fl j
  | 0, fl, j, _ => rfl
  | d + 1, fl, j, h => by
    unfold splitDownGo
    rw [splitDownGo_untouched block k d _ j (by omega)]
    exact listsSet_ne _ _ (by omega)

/-- The split loop prepends exactly the upper buddies of orders
`k, k+1, …, k+d-1` to the flattened block list. -/
theorem splitDownGo_perm (block k : Nat) :
    ∀ (d : Nat) (fl : Nat → List Nat) (n : Nat), k + d ≤ n →
    (blocksUpTo (splitDownGo block k d fl) n).Perm
      (((List.range d).map (fun i => (block + pow2 (k + i), k + i))) ++ blocksUpTo fl n)
  | 0, fl, n, _ => by simp [splitDownGo]
  | d + 1, fl, n, h => by
    unfold splitDownGo
    refine (splitDownGo_perm block k d _ n (by omega)).trans ?_
    rw [List.range_succ, List.map_append]
    refine ((blocksUpTo_push (by omega)).append_left _).trans ?_
    simp only [List.map_cons, List.map_nil]
    rw [List.append_assoc]
    exact List.Perm.refl _

/-- Total bytes of the split-off upper buddies: they fill the gap between
one block of order `k` and one of order `k + d`. -/
theorem sumR_splits (block k : Nat) :
    ∀ d : Nat,
      sumR ((List.range d).map (fun i => (block + pow2 (k + i), k + i))) + pow2 k
        = pow2 (k + d)
  | 0 => by simp [sumR, sumSz]
  | d + 1 => by
    rw [List.range_succ, List.map_append, sumR_append]
    have := sumR_splits block k d
    simp only [List.map_cons, List.map_nil, sumR_cons]
    have h2 := pow2_succ (k + d)
    have h3 : sumR ([] : List (Nat × Nat)) = 0 := by simp [sumR, sumSz]
    rw [show k + (d + 1) = (k + d) + 1 by omega]
    omega

theorem contains_iff_mem {l : List Nat} {a : Nat} : l.contains a = true ↔ a ∈ l := by
  simp [List.contains]

/-- Disjointness from both buddy halves gives disjointness from the merged
block of the next order. -/
theorem DisjR_merge {y : Nat × Nat} {u k : Nat}
    (h1 : DisjR y (u, k)) (h2 : DisjR y (u + pow2 k, k)) : DisjR y (u, k + 1) := by
  unfold DisjR toByte DisjB at *
  simp only at *
  have ha := pow2_succ k
  have hb := pow2_pos k
  have hc := pow2_pos y.2
  omega

/-- Master lemma for the merge loop of `allocator_free`: starting from a
well-formed state and a freed block disjoint from every recorded block, the
loop keeps every invariant component; and when the arena holds at most one
top-order block, it conserves the byte total (the freed block's bytes all
return to the free lists). -/
theorem freeLoopGo_spec (base maxo lo hi mino : Nat) (hbase : base ≤ lo) :
    ∀ (fuel : Nat) (fl : Nat → List Nat) (block k : Nat) (other : List (Nat × Nat)),
    maxo + 1 ≤ fuel + k →
    k ≤ maxo →
    (∀ j, maxo < j → fl j = []) →
    GoodBlk lo hi mino maxo (block, k) →
    (∀ x ∈ blocksUpTo fl (maxo + 1) ++ other, GoodBlk lo hi mino maxo x) →
    ((block, k) :: (blocksUpTo fl (maxo + 1) ++ other)).Pairwise DisjR →
    (∀ j, maxo < j → freeLoopGo base maxo fuel fl block k j = []) ∧
    (∀ x ∈ blocksUpTo (freeLoopGo base maxo fuel fl block k) (maxo + 1) ++ other,
      GoodBlk lo hi mino maxo x) ∧
    (blocksUpTo (freeLoopGo base maxo fuel fl block k) (maxo + 1) ++ other).Pairwise DisjR ∧
    (hi ≤ lo + pow2 maxo →
      sumR (blocksUpTo (freeLoopGo base maxo fuel fl block k) (maxo + 1))
        = pow2 k + sumR (blocksUpTo fl (maxo + 1)))
  | 0, fl, block, k, other, hfuel, hk, _, _, _, _ => absurd hfuel (by omega)
  | fuel + 1, fl, block, k, other, hfuel, hk, habove, hGb, hGall, hP => by
    have heq : freeLoopGo base maxo (fuel + 1) fl block k =
        (if (fl k).contains (base + ((block - base) ^^^ pow2 k)) then
           (if maxo < k + 1 then
              listsSet (listsSet fl k (list_remove (fl k) (base + ((block - base) ^^^ pow2 k)))) k
                (min (base + ((block - base) ^^^ pow2 k)) block ::
                  listsSet fl k (list_remove (fl k) (base + ((block - base) ^^^ pow2 k))) k)
            else
              freeLoopGo base maxo fuel
                (listsSet fl k (list_remove (fl k) (base + ((block - base) ^^^ pow2 k))))
                (min (base + ((block - base) ^^^ pow2 k)) block) (k + 1))
         else listsSet fl k (block :: fl k)) := rfl
    rw [heq]
    set buddy := base + ((block - base) ^^^ pow2 k) with hbuddy
    obtain ⟨hg1, hg2, hg3, hg4, hg5⟩ := hGb
    simp only at hg1 hg2 hg3 hg4 hg5
    rw [List.pairwise_cons] at hP
    obtain ⟨hhd, htail⟩ := hP
    by_cases hcont : (fl k).contains buddy = true
    · rw [if_pos hcont]
      have hbud_mem : buddy ∈ fl k := contains_iff_mem.mp hcont
      have hbud_blk : (buddy, k) ∈ blocksUpTo fl (maxo + 1) :=
        mem_blocksUpTo.mpr ⟨by omega, hbud_mem⟩
      obtain ⟨hb1, hb2, hb3, hb4, hb5⟩ := hGall _ (List.mem_append_left _ hbud_blk)
      simp only at hb1 hb2 hb3 hb4 hb5
      have hblockbase : base + (block - base) = block := by omega
      have hxor : (buddy = block + pow2 k ∧ min buddy block = block) ∨
          (buddy + pow2 k = block ∧ min buddy block = buddy) := by
        rcases xor_pow2_cases (block - base) k with hx | ⟨hxle, hx⟩
        · left
          constructor
          · rw [hbuddy, hx]; omega
          · have : block ≤ buddy := by rw [hbuddy, hx]; omega
            omega
        · right
          constructor
          · rw [hbuddy, hx]; omega
          · have : buddy ≤ block := by rw [hbuddy, hx]; omega
            omega
      set fl' := listsSet fl k (list_remove (fl k) buddy) with hfl'
      have hrem : (blocksUpTo fl (maxo + 1)).Perm
          ((buddy, k) :: blocksUpTo fl' (maxo + 1)) :=
        blocksUpTo_remove hbud_mem (by omega)
      have habove' : ∀ j, maxo < j → fl' j = [] := by
        intro j hj
        rw [hfl', listsSet_ne _ _ (by omega)]
        exact habove j hj
      have hmemfl' : ∀ y ∈ blocksUpTo fl' (maxo + 1) ++ other,
          y ∈ blocksUpTo fl (maxo + 1) ++ other := by
        intro y hy
        rcases List.mem_append.mp hy with hy | hy
        · exact List.mem_append_left _ (hrem.mem_iff.mpr (by simp [hy]))
        · exact List.mem_append_right _ hy
      have htail' : ((buddy, k) :: (blocksUpTo fl' (maxo + 1) ++ other)).Pairwise DisjR :=
        (List.Perm.pairwise_iff (fun h => DisjR_symm h) (hrem.append_right other)).mp htail
      rw [List.pairwise_cons] at htail'
      obtain ⟨hbudhd, htail''⟩ := htail'
      have hp := pow2_succ k
      have hpp := pow2_pos k
      have hUfacts : lo ≤ min buddy block ∧ min buddy block + pow2 (k + 1) ≤ hi ∧
          pow2 mino ∣ (min buddy block - lo) ∧
          ((min buddy block, k) = (block, k) ∨ (min buddy block, k) = (buddy, k)) ∧
          buddy ≠ block ∧
          (min buddy block + pow2 k = block ∨ min buddy block + pow2 k = buddy) := by
        rcases hxor with ⟨he, hm⟩ | ⟨he, hm⟩
        · rw [hm]
          exact ⟨hg3, by omega, hg5, Or.inl rfl, by omega, Or.inr (by omega)⟩
        · rw [hm]
          exact ⟨hb3, by omega, hb5, Or.inr rfl, by omega, Or.inl (by omega)⟩
      obtain ⟨hU1, hU2, hU3, hU4, hUne, hU5⟩ := hUfacts
      have hUdisj : ∀ y ∈ blocksUpTo fl' (maxo + 1) ++ other,
          DisjR y (min buddy block, k + 1) := by
        intro y hy
        have hyb : DisjR y (block, k) := DisjR_symm (hhd y (hmemfl' y hy))
        have hyd : DisjR y (buddy, k) := DisjR_symm (hbudhd y hy)
        refine DisjR_merge ?_ ?_
        · rcases hU4 with h4 | h4 <;> rw [h4] <;> assumption
        · rcases hU5 with h5 | h5 <;> rw [h5] <;> assumption
      by_cases htop : maxo < k + 1
      · rw [if_pos htop]
        have hpush : (blocksUpTo (listsSet fl' k (min buddy block :: fl' k)) (maxo + 1)).Perm
            ((min buddy block, k) :: blocksUpTo fl' (maxo + 1)) := blocksUpTo_push (by omega)
        refine ⟨?_, ?_, ?_, ?_⟩
        · intro j hj
          rw [listsSet_ne _ _ (by omega)]
          exact habove' j hj
        · intro x hx
          rcases List.mem_append.mp hx with hx | hx
          · rcases List.mem_cons.mp (hpush.mem_iff.mp hx) with rfl | hx
            · rcases hU4 with h4 | h4 <;> rw [h4]
              · exact ⟨hg1, hg2, hg3, hg4, hg5⟩
              · exact ⟨hb1, hb2, hb3, hb4, hb5⟩
            · exact hGall _ (hmemfl' x (List.mem_append_left _ hx))
          · exact hGall _ (List.mem_append_right _ hx)
        · refine (List.Perm.pairwise_iff (fun h => DisjR_symm h)
            ((hpush.append_right other).symm)).mp ?_
          rw [show ((min buddy block, k) :: blocksUpTo fl' (maxo + 1)) ++ other
                = (min buddy block, k) :: (blocksUpTo fl' (maxo + 1) ++ other) by simp]
          rw [List.pairwise_cons]
          refine ⟨?_, htail''⟩
          intro y hy
          rcases hU4 with h4 | h4 <;> rw [h4]
          · exact hhd y (hmemfl' y hy)
          · exact hbudhd y hy
        · intro hsingle
          exfalso
          have hkm : k = maxo := by omega
          rw [hkm] at hg4 hb4
          exact hUne (by omega)
      · rw [if_neg htop]
        have hGU : GoodBlk lo hi mino maxo (min buddy block, k + 1) :=
          ⟨by simp only; omega, by simp only; omega, hU1, hU2, hU3⟩
        have hPnew : ((min buddy block, k + 1) ::
            (blocksUpTo fl' (maxo + 1) ++ other)).Pairwise DisjR := by
          rw [List.pairwise_cons]
          exact ⟨fun y hy => DisjR_symm (hUdisj y hy), htail''⟩
        obtain ⟨i1, i2, i3, i4⟩ := freeLoopGo_spec base maxo lo hi mino hbase fuel fl'
          (min buddy block) (k + 1) other (by omega) (by omega) habove' hGU
          (fun x hx => hGall x (hmemfl' x hx)) hPnew
        refine ⟨i1, i2, i3, ?_⟩
        intro hsingle
        have hsum := i4 hsingle
        have hsumrem : sumR (blocksUpTo fl (maxo + 1))
            = pow2 k + sumR (blocksUpTo fl' (maxo + 1)) := by
          rw [sumR_perm hrem, sumR_cons]
        omega
    · rw [if_neg hcont]
      have hpush : (blocksUpTo (listsSet fl k (block :: fl k)) (maxo + 1)).Perm
          ((block, k) :: blocksUpTo fl (maxo + 1)) := blocksUpTo_push (by omega)
      refine ⟨?_, ?_, ?_, ?_⟩
      · intro j hj
        rw [listsSet_ne _ _ (by omega)]
        exact habove j hj
      · intro x hx
        rcases List.mem_append.mp hx with hx | hx
        · rcases List.mem_cons.mp (hpush.mem_iff.mp hx) with rfl | hx
          · exact ⟨hg1, hg2, hg3, hg4, hg5⟩
          · exact hGall _ (List.mem_append_left _ hx)
        · exact hGall _ (List.mem_append_right _ hx)
      · refine (List.Perm.pairwise_iff (fun h => DisjR_symm h)
          ((hpush.append_right other).symm)).mp ?_
        rw [show ((block, k) :: blocksUpTo fl (maxo + 1)) ++ other
              = (block, k) :: (blocksUpTo fl (maxo + 1) ++ other) by simp]
        exact List.pairwise_cons.mpr ⟨hhd, htail⟩
      · intro _
        rw [sumR_perm hpush, sumR_cons]

/-- Control-flow characterization of `allocator_alloc`: it either fails with
the state unchanged, or pops the head of the first non-empty suitable list
and splits it down. -/
theorem alloc_characterization (st : State) (n : Nat) :
    ((allocator_alloc st n).1 = none ∧ (allocator_alloc st n).2 = st) ∨
    (∃ node rest,
      n ≠ 0 ∧
      order_for n st.min_order ≤ st.max_order ∧
      order_for n st.min_order ≤
        findCurGo st.free_lists st.max_order (st.max_order + 2) (order_for n st.min_order) ∧
      findCurGo st.free_lists st.max_order (st.max_order + 2) (order_for n st.min_order)
        ≤ st.max_order ∧
      st.free_lists (findCurGo st.free_lists st.max_order (st.max_order + 2)
        (order_for n st.min_order)) = node :: rest ∧
      allocator_alloc st n =
        (some (node + tagSize),
         { st with
             free_lists := splitDownGo node (order_for n st.min_order)
               (findCurGo st.free_lists st.max_order (st.max_order + 2)
                  (order_for n st.min_order) - order_for n st.min_order)
               (listsSet st.free_lists
                 (findCurGo st.free_lists st.max_order (st.max_order + 2)
                   (order_for n st.min_order)) rest),
             live := (node, order_for n st.min_order) :: st.live })) := by
  have hcurge : order_for n st.min_order ≤
      findCurGo st.free_lists st.max_order (st.max_order + 2) (order_for n st.min_order) :=
    (findCurGo_spec st.free_lists st.max_order (st.max_order + 2) _ (by omega)).1
  have heq : allocator_alloc st n =
      (if n = 0 then (none, st)
       else if st.max_order < order_for n st.min_order then (none, st)
       else if st.max_order <
           findCurGo st.free_lists st.max_order (st.max_order + 2) (order_for n st.min_order)
         then (none, st)
       else
         match st.free_lists (findCurGo st.free_lists st.max_order (st.max_order + 2)
             (order_for n st.min_order)) with
         | [] => (none, st)
         | node :: rest =>
           (some (node + tagSize),
            { st with
                free_lists := splitDownGo node (order_for n st.min_order)
                  (findCurGo st.free_lists st.max_order (st.max_order + 2)
                     (order_for n st.min_order) - order_for n st.min_order)
                  (listsSet st.free_lists
                    (findCurGo st.free_lists st.max_order (st.max_order + 2)
                      (order_for n st.min_order)) rest),
                live := (node, order_for n st.min_order) :: st.live })) := rfl
  rw [heq]
  by_cases h0 : n = 0
  · rw [if_pos h0]; exact Or.inl ⟨rfl, rfl⟩
  rw [if_neg h0]
  by_cases h1 : st.max_order < order_for n st.min_order
  · rw [if_pos h1]; exact Or.inl ⟨rfl, rfl⟩
  rw [if_neg h1]
  by_cases h2 : st.max_order <
      findCurGo st.free_lists st.max_order (st.max_order + 2) (order_for n st.min_order)
  · rw [if_pos h2]; exact Or.inl ⟨rfl, rfl⟩
  rw [if_neg h2]
  cases hfl : st.free_lists (findCurGo st.free_lists st.max_order (st.max_order + 2)
      (order_for n st.min_order)) with
  | nil => exact Or.inl ⟨rfl, rfl⟩
  | cons node rest =>
    exact Or.inr ⟨node, rest, h0, by omega, hcurge, by omega, rfl, rfl⟩

/-- `allocator_alloc` preserves the invariant and the byte total. -/
theorem Inv_alloc (lo hi : Nat) (st : State) (n : Nat) (h : Inv lo hi st) :
    Inv lo hi (allocator_alloc st n).2 ∧
    sumR (blocksOf (allocator_alloc st n).2) = sumR (blocksOf st) := by
  obtain ⟨hbase, habove, hGall, hP⟩ := h
  rcases alloc_characterization st n with ⟨-, hst⟩ | ⟨node, rest, -, hk, hck, hcm, hfl, hres⟩
  · rw [hst]
    exact ⟨⟨hbase, habove, hGall, hP⟩, rfl⟩
  · rw [hres]
    set k := order_for n st.min_order with hkdef
    set cur := findCurGo st.free_lists st.max_order (st.max_order + 2) k with hcurdef
    have hkmin : st.min_order ≤ k := (order_for_spec n st.min_order).1
    set fl1 := listsSet st.free_lists cur rest with hfl1
    have hpop : (blocksUpTo st.free_lists (st.max_order + 1)).Perm
        ((node, cur) :: blocksUpTo fl1 (st.max_order + 1)) :=
      blocksUpTo_pop hfl (by omega)
    obtain ⟨hn1, hn2, hn3, hn4, hn5⟩ := hGall (node, cur)
      (List.mem_append_left _ (mem_blocksUpTo.mpr ⟨by omega, by rw [hfl]; simp⟩))
    simp only at hn1 hn2 hn3 hn4 hn5
    have hsplit : (blocksUpTo (splitDownGo node k (cur - k) fl1) (st.max_order + 1)).Perm
        (((List.range (cur - k)).map (fun i => (node + pow2 (k + i), k + i))) ++
          blocksUpTo fl1 (st.max_order + 1)) :=
      splitDownGo_perm node k (cur - k) fl1 (st.max_order + 1) (by omega)
    -- the old pairwise, reorganized around the popped block
    have hPold : ((node, cur) :: (blocksUpTo fl1 (st.max_order + 1) ++ st.live)).Pairwise
        DisjR := by
      have := (List.Perm.pairwise_iff (fun h => DisjR_symm h)
        (hpop.append_right st.live)).mp hP
      exact this
    rw [List.pairwise_cons] at hPold
    obtain ⟨hhd, htail⟩ := hPold
    have hmemfl1 : ∀ y ∈ blocksUpTo fl1 (st.max_order + 1) ++ st.live,
        y ∈ blocksOf st := by
      intro y hy
      rcases List.mem_append.mp hy with hy | hy
      · exact List.mem_append_left _ (hpop.mem_iff.mpr (by simp [hy]))
      · exact List.mem_append_right _ hy
    -- membership facts for the split-off buddies
    have hrange : ∀ x ∈ (List.range (cur - k)).map (fun i => (node + pow2 (k + i), k + i)),
        ∃ i, i < cur - k ∧ x = (node + pow2 (k + i), k + i) := by
      intro x hx
      obtain ⟨i, hi, rfl⟩ := List.mem_map.mp hx
      exact ⟨i, List.mem_range.mp hi, rfl⟩
    -- the new flattened block list, as one permutation
    have hperm : (blocksOf { st with
        free_lists := splitDownGo node k (cur - k) fl1,
        live := (node, k) :: st.live }).Perm
        (((List.range (cur - k)).map (fun i => (node + pow2 (k + i), k + i))) ++
          ((node, k) :: (blocksUpTo fl1 (st.max_order + 1) ++ st.live))) := by
      unfold blocksOf
      simp only
      refine (hsplit.append_right _).trans ?_
      rw [List.append_assoc]
      exact List.Perm.append_left _ List.perm_middle
    have hGnew : ∀ x ∈ ((List.range (cur - k)).map (fun i => (node + pow2 (k + i), k + i))) ++
        ((node, k) :: (blocksUpTo fl1 (st.max_order + 1) ++ st.live)),
        GoodBlk lo hi st.min_order st.max_order x := by
      intro x hx
      rcases List.mem_append.mp hx with hx | hx
      · obtain ⟨i, hi, rfl⟩ := hrange x hx
        refine ⟨by simp only; omega, by simp only; omega, by simp only; omega, ?_, ?_⟩
        · have h1 : pow2 (k + i) + pow2 (k + i) ≤ pow2 cur := by
            have := pow2_succ (k + i)
            have := pow2_le_pow2 (show k + i + 1 ≤ cur by omega)
            omega
          simp only
          omega
        · simp only
          rw [show node + pow2 (k + i) - lo = (node - lo) + pow2 (k + i) by omega]
          exact Nat.dvd_add hn5 (pow2_dvd_pow2 (by omega))
      · rcases List.mem_cons.mp hx with rfl | hx
        · refine ⟨by simp only; omega, by simp only; omega, hn3, ?_, hn5⟩
          have := pow2_le_pow2 (show k ≤ cur by omega)
          simp only
          omega
        · exact hGall x (hmemfl1 x hx)
    have hPnew : (((List.range (cur - k)).map (fun i => (node + pow2 (k + i), k + i))) ++
        ((node, k) :: (blocksUpTo fl1 (st.max_order + 1) ++ st.live))).Pairwise DisjR := by
      rw [List.pairwise_append]
      refine ⟨?_, ?_, ?_⟩
      · refine List.Pairwise.map _ ?_ (List.pairwise_lt_range (cur - k))
        intro i j hij
        unfold DisjR toByte DisjB
        simp only
        left
        have h1 : pow2 (k + i) + pow2 (k + i) ≤ pow2 (k + j) := by
          have := pow2_succ (k + i)
          have := pow2_le_pow2 (show k + i + 1 ≤ k + j by omega)
          omega
        omega
      · rw [List.pairwise_cons]
        refine ⟨?_, htail⟩
        intro y hy
        have hyold : DisjR (node, cur) y := hhd y hy
        exact DisjB_sub hyold.symm (by simp [toByte]) (by
          simp only [toByte]
          exact Nat.add_le_add_left (pow2_le_pow2 (by omega)) node) |>.symm
      · intro x hx y hy
        obtain ⟨i, hi, rfl⟩ := hrange x hx
        rcases List.mem_cons.mp hy with rfl | hy
        · unfold DisjR toByte DisjB
          simp only
          right
          exact Nat.add_le_add_left (pow2_le_pow2 (by omega)) node
        · have hyold : DisjR (node, cur) y := hhd y hy
          refine (DisjB_sub hyold.symm ?_ ?_).symm
          · simp only [toByte]
            omega
          · simp only [toByte]
            have h1 : pow2 (k + i) + pow2 (k + i) ≤ pow2 cur := by
              have := pow2_succ (k + i)
              have := pow2_le_pow2 (show k + i + 1 ≤ cur by omega)
              omega
            omega
    refine ⟨⟨hbase, ?_, ?_, ?_⟩, ?_⟩
    · intro j hj
      simp only at hj ⊢
      rw [splitDownGo_untouched node k (cur - k) fl1 j (by omega)]
      rw [hfl1, listsSet_ne _ _ (by omega)]
      exact habove j hj
    · intro x hx
      exact hGnew x (hperm.mem_iff.mp hx)
    · exact (List.Perm.pairwise_iff (fun h => DisjR_symm h) hperm.symm).mp hPnew
    · rw [sumR_perm hperm]
      have hs1 := sumR_splits node k (cur - k)
      rw [show k + (cur - k) = cur by omega] at hs1
      have hs2 : sumR (blocksOf st) = pow2 cur +
          (sumR (blocksUpTo fl1 (st.max_order + 1)) + sumR st.live) := by
        unfold blocksOf
        rw [sumR_append, sumR_perm hpop, sumR_cons]
        simp only
        omega
      rw [sumR_append, sumR_cons, sumR_append]
      simp only
      omega

/-- `allocator_free` preserves the invariant; with at most one top-order
block in the arena it also conserves the byte total. -/
theorem Inv_free (lo hi : Nat) (st : State) (p : Nat) (h : Inv lo hi st) :
    Inv lo hi (allocator_free st p) ∧
    (hi ≤ lo + pow2 st.max_order →
      sumR (blocksOf (allocator_free st p)) = sumR (blocksOf st)) := by
  obtain ⟨hbase, habove, hGall, hP⟩ := h
  have heq : allocator_free st p =
      match lookupAt st.live (p - tagSize) with
      | none => st
      | some k =>
        { st with live := removeAt st.live (p - tagSize),
                  free_lists := freeLoopGo st.base st.max_order (st.max_order + 2)
                    st.free_lists (p - tagSize) k } := rfl
  rw [heq]
  cases hl : lookupAt st.live (p - tagSize) with
  | none => exact ⟨⟨hbase, habove, hGall, hP⟩, fun _ => rfl⟩
  | some k =>
    have hmem : (p - tagSize, k) ∈ st.live := lookupAt_mem hl
    have hperm : st.live.Perm ((p - tagSize, k) :: removeAt st.live (p - tagSize)) :=
      removeAt_perm hl
    have hpermB : (blocksOf st).Perm
        ((p - tagSize, k) :: (blocksUpTo st.free_lists (st.max_order + 1) ++
          removeAt st.live (p - tagSize))) := by
      unfold blocksOf
      exact (List.Perm.append_left _ hperm).trans List.perm_middle
    have hGb : GoodBlk lo hi st.min_order st.max_order (p - tagSize, k) :=
      hGall _ (List.mem_append_right _ hmem)
    have hk : k ≤ st.max_order := hGb.2.1
    have hPb := (List.Perm.pairwise_iff (fun h => DisjR_symm h) hpermB).mp hP
    have hGall' : ∀ x ∈ blocksUpTo st.free_lists (st.max_order + 1) ++
        removeAt st.live (p - tagSize), GoodBlk lo hi st.min_order st.max_order x := by
      intro x hx
      refine hGall x (hpermB.mem_iff.mpr (by simp [hx]))
    obtain ⟨i1, i2, i3, i4⟩ := freeLoopGo_spec st.base st.max_order lo hi st.min_order hbase
      (st.max_order + 2) st.free_lists (p - tagSize) k (removeAt st.live (p - tagSize))
      (by omega) hk habove hGb hGall' hPb
    refine ⟨⟨hbase, i1, i2, i3⟩, ?_⟩
    intro hsingle
    have hs := i4 hsingle
    have hsl : sumR st.live = pow2 k + sumR (removeAt st.live (p - tagSize)) := by
      rw [sumR_perm hperm, sumR_cons]
    unfold blocksOf
    simp only
    rw [sumR_append, sumR_append]
    omega

/-- `step` leaves the configuration fields unchanged. -/
theorem step_fields (st : State) (op : Op) :
    (step st op).base = st.base ∧ (step st op).size = st.size ∧
    (step st op).min_order = st.min_order ∧ (step st op).max_order = st.max_order := by
  cases op with
  | alloc n =>
    show (allocator_alloc st n).2.base = st.base ∧ (allocator_alloc st n).2.size = st.size ∧
      (allocator_alloc st n).2.min_order = st.min_order ∧
      (allocator_alloc st n).2.max_order = st.max_order
    rcases alloc_characterization st n with ⟨-, hst⟩ | ⟨node, rest, -, -, -, -, -, hres⟩
    · rw [hst]; exact ⟨rfl, rfl, rfl, rfl⟩
    · rw [hres]; exact ⟨rfl, rfl, rfl, rfl⟩
  | free p =>
    show (allocator_free st p).base = st.base ∧ (allocator_free st p).size = st.size ∧
      (allocator_free st p).min_order = st.min_order ∧
      (allocator_free st p).max_order = st.max_order
    have heq : allocator_free st p =
        match lookupAt st.live (p - tagSize) with
        | none => st
        | some k =>
          { st with live := removeAt st.live (p - tagSize),
                    free_lists := freeLoopGo st.base st.max_order (st.max_order + 2)
                      st.free_lists (p - tagSize) k } := rfl
    rw [heq]
    cases lookupAt st.live (p - tagSize) with
    | none => exact ⟨rfl, rfl, rfl, rfl⟩
    | some k => exact ⟨rfl, rfl, rfl, rfl⟩

theorem Inv_step (lo hi : Nat) (st : State) (op : Op) (h : Inv lo hi st) :
    Inv lo hi (step st op) ∧
    (hi ≤ lo + pow2 st.max_order → sumR (blocksOf (step st op)) = sumR (blocksOf st)) := by
  cases op with
  | alloc n =>
    obtain ⟨h1, h2⟩ := Inv_alloc lo hi st n h
    exact ⟨h1, fun _ => h2⟩
  | free p => exact Inv_free lo hi st p h

/-- The buddy invariant holds after any call sequence, and (with a
single-top-block arena) so does byte conservation. -/
theorem Inv_run (lo hi : Nat) (ops : List Op) : ∀ st : State, Inv lo hi st →
    Inv lo hi (run st ops) ∧
    (run st ops).max_order = st.max_order ∧
    (hi ≤ lo + pow2 st.max_order → sumR (blocksOf (run st ops)) = sumR (blocksOf st)) := by
  induction ops with
  | nil => exact fun st h => ⟨h, rfl, fun _ => rfl⟩
  | cons op ops ih =>
    intro st h
    show Inv lo hi (run (step st op) ops) ∧
      (run (step st op) ops).max_order = st.max_order ∧
      (hi ≤ lo + pow2 st.max_order →
        sumR (blocksOf (run (step st op) ops)) = sumR (blocksOf st))
    obtain ⟨h1, h2⟩ := Inv_step lo hi st op h
    obtain ⟨-, -, -, hmax⟩ := step_fields st op
    obtain ⟨i1, i2, i3⟩ := ih (step st op) h1
    refine ⟨i1, by rw [i2, hmax], ?_⟩
    intro hsingle
    rw [i3 (by rw [hmax]; exact hsingle), h2 hsingle]

/-! ### `allocator_create` characterization -/

theorem maxOrderGo_spec (usable : Nat) :
    ∀ (fuel m : Nat), 20 ≤ fuel + m → m ≤ 20 → pow2 m ≤ usable →
      m ≤ maxOrderGo usable fuel m ∧ maxOrderGo usable fuel m ≤ 20 ∧
      pow2 (maxOrderGo usable fuel m) ≤ usable ∧
      (maxOrderGo usable fuel m < 20 → usable < pow2 (maxOrderGo usable fuel m + 1))
  | 0, m, hfuel, hm, hp => by
    unfold maxOrderGo
    exact ⟨le_refl _, hm, hp, fun h => by omega⟩
  | fuel + 1, m, hfuel, hm, hp => by
    unfold maxOrderGo
    by_cases hc : m < 20 ∧ pow2 (m + 1) ≤ usable
    · rw [if_pos hc]
      obtain ⟨h1, h2, h3, h4⟩ := maxOrderGo_spec usable fuel (m + 1)
        (by omega) (by omega) hc.2
      exact ⟨by omega, h2, h3, h4⟩
    · rw [if_neg hc]
      refine ⟨le_refl _, hm, hp, ?_⟩
      intro h20
      rcases Decidable.not_and_iff_or_not.mp hc with h | h
      · omega
      · omega

/-- Derived layout quantities of `allocator_create`, recomputing exactly the
values the C code computes. -/
def mkOff : Nat := align_up sizeofAllocator 16

def usable0 (size : Nat) : Nat := size - mkOff

def maxOrderOf (size : Nat) : Nat := maxOrderGo (usable0 size) 20 0

/-- Start of the aligned working arena. -/
def arenaLo (base size : Nat) : Nat := align_up (base + mkOff) (pow2 (maxOrderOf size))

def alignPad (base size : Nat) : Nat := arenaLo base size - (base + mkOff)

/-- Usable length after alignment padding and rounding down to a multiple of
the maximum block size. -/
def usableLen (base size : Nat) : Nat :=
  (usable0 size - alignPad base size) -
    (usable0 size - alignPad base size) % pow2 (maxOrderOf size)

def arenaHi (base size : Nat) : Nat := arenaLo base size + usableLen base size

theorem maxOrderOf_facts (size : Nat) (h : 64 ≤ usable0 size) :
    6 ≤ maxOrderOf size ∧ maxOrderOf size ≤ 20 ∧ pow2 (maxOrderOf size) ≤ usable0 size ∧
    (maxOrderOf size < 20 → usable0 size < pow2 (maxOrderOf size + 1)) := by
  obtain ⟨h1, h2, h3, h4⟩ := maxOrderGo_spec (usable0 size) 20 0 (by omega) (by omega)
    (by simp [pow2]; omega)
  have hm : maxOrderOf size = maxOrderGo (usable0 size) 20 0 := rfl
  rw [hm]
  refine ⟨?_, h2, h3, h4⟩
  by_contra hlt
  push_neg at hlt
  have h6 := h4 (by omega)
  have h7 : pow2 (maxOrderGo (usable0 size) 20 0 + 1) ≤ pow2 6 := pow2_le_pow2 (by omega)
  have h8 : pow2 6 = 64 := by norm_num [pow2]
  omega

theorem alignPad_lt (base size : Nat) (h : 64 ≤ usable0 size) :
    alignPad base size < pow2 (maxOrderOf size) := by
  unfold alignPad arenaLo
  have h1 := align_up_lt (base + mkOff) (pow2 (maxOrderOf size)) (pow2_pos _)
  have h2 := le_align_up (base + mkOff) (pow2 (maxOrderOf size)) (pow2_pos _)
  omega

/-- `allocator_create` fails exactly when the usable size is below 64 bytes;
otherwise it produces precisely the seeded state.  (The two later checks of
the C code — `max_order < min_order` and `align_pad >= usable` — are
unreachable once `usable >= 64`.) -/
theorem create_spec (base size : Nat) :
    (allocator_create base size = none ↔ usable0 size < 64) ∧
    (64 ≤ usable0 size →
      allocator_create base size = some
        { base := base, size := size, min_order := 4, max_order := maxOrderOf size,
          free_lists := listsSet (fun _ => []) (maxOrderOf size)
            (seedGo (arenaLo base size) (maxOrderOf size)
              (usableLen base size / pow2 (maxOrderOf size))),
          live := [] }) := by
  have hmin4 : (if pow2 4 < tagSize + 8 then ilog2_ceil (tagSize + 8) else 4) = 4 := by
    norm_num [pow2, tagSize]
  have heq : allocator_create base size =
      (if size - mkOff < 64 then none
       else if maxOrderGo (size - mkOff) 20 0 <
           (if pow2 4 < tagSize + 8 then ilog2_ceil (tagSize + 8) else 4) then none
       else if size - mkOff ≤
           align_up (base + mkOff) (pow2 (maxOrderGo (size - mkOff) 20 0)) - (base + mkOff)
         then none
       else some
         { base := base, size := size,
           min_order := (if pow2 4 < tagSize + 8 then ilog2_ceil (tagSize + 8) else 4),
           max_order := maxOrderGo (size - mkOff) 20 0,
           free_lists := listsSet (fun _ => []) (maxOrderGo (size - mkOff) 20 0)
             (seedGo (align_up (base + mkOff) (pow2 (maxOrderGo (size - mkOff) 20 0)))
               (maxOrderGo (size - mkOff) 20 0)
               (((size - mkOff -
                   (align_up (base + mkOff) (pow2 (maxOrderGo (size - mkOff) 20 0)) -
                     (base + mkOff))) -
                  (size - mkOff -
                   (align_up (base + mkOff) (pow2 (maxOrderGo (size - mkOff) 20 0)) -
                     (base + mkOff))) % pow2 (maxOrderGo (size - mkOff) 20 0)) /
                 pow2 (maxOrderGo (size - mkOff) 20 0))),
           live := [] }) := rfl
  constructor
  · rw [heq]
    constructor
    · intro hnone
      by_contra hge
      push_neg at hge
      have hge' : 64 ≤ usable0 size := hge
      obtain ⟨hm6, hm20, hmle, hmtop⟩ := maxOrderOf_facts size hge'
      rw [if_neg (by unfold usable0 at hge'; omega)] at hnone
      rw [hmin4] at hnone
      rw [if_neg (by
        unfold maxOrderOf usable0 at hm6
        omega)] at hnone
      rw [if_neg (by
        have := alignPad_lt base size hge'
        unfold alignPad arenaLo maxOrderOf usable0 at *
        omega)] at hnone
      exact Option.some_ne_none _ hnone
    · intro hlt
      rw [if_pos (by unfold usable0 at hlt; omega)]
  · intro hge
    obtain ⟨hm6, hm20, hmle, hmtop⟩ := maxOrderOf_facts size hge
    rw [heq]
    rw [if_neg (by unfold usable0 at hge; omega)]
    rw [hmin4]
    rw [if_neg (by unfold maxOrderOf usable0 at hm6; omega)]
    rw [if_neg (by
      have := alignPad_lt base size hge
      unfold alignPad arenaLo maxOrderOf usable0 at *
      omega)]
    rfl

theorem seedGo_mem {arena maxo : Nat} :
    ∀ {blocks a : Nat}, a ∈ seedGo arena maxo blocks ↔ ∃ i, i < blocks ∧ a = arena + i * pow2 maxo
  | 0, a => by simp [seedGo]
  | blocks + 1, a => by
    simp only [seedGo, List.mem_cons, seedGo_mem]
    constructor
    · rintro (rfl | ⟨i, hi, rfl⟩)
      · exact ⟨blocks, by omega, rfl⟩
      · exact ⟨i, by omega, rfl⟩
    · rintro ⟨i, hi, rfl⟩
      by_cases hib : i = blocks
      · subst hib; exact Or.inl rfl
      · exact Or.inr ⟨i, by omega, rfl⟩

theorem seed_pairwise (arena maxo : Nat) :
    ∀ blocks : Nat, ((seedGo arena maxo blocks).map (fun a => (a, maxo))).Pairwise DisjR
  | 0 => by simp [seedGo]
  | blocks + 1 => by
    simp only [seedGo, List.map_cons, List.pairwise_cons]
    refine ⟨?_, seed_pairwise arena maxo blocks⟩
    intro y hy
    obtain ⟨a, ha, rfl⟩ := List.mem_map.mp hy
    obtain ⟨i, hi, rfl⟩ := seedGo_mem.mp ha
    unfold DisjR toByte DisjB
    simp only
    right
    have h1 : (i + 1) * pow2 maxo ≤ blocks * pow2 maxo := Nat.mul_le_mul_right _ (by omega)
    have h2 : (i + 1) * pow2 maxo = i * pow2 maxo + pow2 maxo := by ring
    omega

theorem seed_sum (arena maxo : Nat) :
    ∀ blocks : Nat,
      sumR ((seedGo arena maxo blocks).map (fun a => (a, maxo))) = blocks * pow2 maxo
  | 0 => by simp [seedGo, sumR, sumSz]
  | blocks + 1 => by
    simp only [seedGo, List.map_cons, sumR_cons]
    rw [seed_sum arena maxo blocks]
    ring

theorem blocksUpTo_empty {fl : Nat → List Nat} :
    ∀ {n : Nat}, (∀ j, j < n → fl j = []) → blocksUpTo fl n = []
  | 0, _ => rfl
  | n + 1, h => by
    simp only [blocksUpTo]
    rw [blocksUpTo_empty (fun j hj => h j (by omega)), h n (by omega)]
    rfl

/-- The freshly created state satisfies the invariant over the aligned
arena, and its free bytes are exactly the trimmed usable length. -/
theorem Inv_create (base size : Nat) (st : State) (h : allocator_create base size = some st) :
    Inv (arenaLo base size) (arenaHi base size) st ∧
    st.base = base ∧ st.size = size ∧ st.min_order = 4 ∧ st.max_order = maxOrderOf size ∧
    sumR (blocksOf st) = usableLen base size := by
  have h64 : 64 ≤ usable0 size := by
    by_contra hlt
    push_neg at hlt
    rw [(create_spec base size).1.mpr hlt] at h
    exact Option.noConfusion h
  have hsome := (create_spec base size).2 h64
  rw [hsome] at h
  obtain rfl := Option.some.inj h
  obtain ⟨hm6, hm20, hmle, hmtop⟩ := maxOrderOf_facts size h64
  have hdvd : pow2 (maxOrderOf size) ∣ usableLen base size := by
    unfold usableLen
    refine ⟨(usable0 size - alignPad base size) / pow2 (maxOrderOf size), ?_⟩
    have := Nat.mod_add_div (usable0 size - alignPad base size) (pow2 (maxOrderOf size))
    omega
  have hblockslen : (usableLen base size / pow2 (maxOrderOf size)) * pow2 (maxOrderOf size)
      = usableLen base size := Nat.div_mul_cancel hdvd
  have hblocks : blocksOf
      { base := base, size := size, min_order := 4, max_order := maxOrderOf size,
        free_lists := listsSet (fun _ => []) (maxOrderOf size)
          (seedGo (arenaLo base size) (maxOrderOf size)
            (usableLen base size / pow2 (maxOrderOf size))),
        live := [] } =
      ((seedGo (arenaLo base size) (maxOrderOf size)
        (usableLen base size / pow2 (maxOrderOf size))).map
          (fun a => (a, maxOrderOf size))) := by
    unfold blocksOf
    simp only [blocksUpTo]
    rw [List.append_nil]
    rw [blocksUpTo_empty (fun j hj => listsSet_ne _ _ (by omega)), listsSet_at]
    simp
  refine ⟨⟨?_, ?_, ?_, ?_⟩, rfl, rfl, rfl, rfl, ?_⟩
  · show base ≤ arenaLo base size
    have := le_align_up (base + mkOff) (pow2 (maxOrderOf size)) (pow2_pos _)
    unfold arenaLo
    omega
  · intro j hj
    simp only at hj ⊢
    have hne : j ≠ maxOrderOf size := by omega
    exact listsSet_ne _ _ hne
  · intro x hx
    rw [hblocks] at hx
    obtain ⟨a, ha, rfl⟩ := List.mem_map.mp hx
    obtain ⟨i, hi, rfl⟩ := seedGo_mem.mp ha
    refine ⟨by simp only; omega, by simp only; omega, by simp only; omega, ?_, ?_⟩
    · simp only
      unfold arenaHi
      have h1 : (i + 1) * pow2 (maxOrderOf size) ≤
          (usableLen base size / pow2 (maxOrderOf size)) * pow2 (maxOrderOf size) :=
        Nat.mul_le_mul_right _ (by omega)
      have h2 : (i + 1) * pow2 (maxOrderOf size)
          = i * pow2 (maxOrderOf size) + pow2 (maxOrderOf size) := by ring
      omega
    · simp only
      rw [show arenaLo base size + i * pow2 (maxOrderOf size) - arenaLo base size
            = i * pow2 (maxOrderOf size) by omega]
      exact Dvd.dvd.mul_left (pow2_dvd_pow2 (by omega)) i
  · rw [hblocks]
    exact seed_pairwise _ _ _
  · rw [hblocks, seed_sum, hblockslen]

/-- `run` leaves the configuration fields unchanged. -/
theorem run_fields (ops : List Op) : ∀ st : State,
    (run st ops).base = st.base ∧ (run st ops).size = st.size ∧
    (run st ops).min_order = st.min_order ∧ (run st ops).max_order = st.max_order := by
  induction ops with
  | nil => exact fun _ => ⟨rfl, rfl, rfl, rfl⟩
  | cons op ops ih =>
    intro st
    obtain ⟨s1, s2, s3, s4⟩ := step_fields st op
    obtain ⟨i1, i2, i3, i4⟩ := ih (step st op)
    exact ⟨by rw [show run st (op :: ops) = run (step st op) ops from rfl, i1, s1],
      by rw [show run st (op :: ops) = run (step st op) ops from rfl, i2, s2],
      by rw [show run st (op :: ops) = run (step st op) ops from rfl, i3, s3],
      by rw [show run st (op :: ops) = run (step st op) ops from rfl, i4, s4]⟩

/-- The aligned arena clears the descriptor: it starts at or past
`base + sizeof(Allocator)`. -/
theorem arenaLo_ge (base size : Nat) : base + sizeofAllocator ≤ arenaLo base size := by
  have h1 : sizeofAllocator ≤ mkOff := le_align_up sizeofAllocator 16 (by norm_num)
  have h2 : base + mkOff ≤ arenaLo base size :=
    le_align_up (base + mkOff) (pow2 (maxOrderOf size)) (pow2_pos _)
  omega

/-- The aligned-and-trimmed arena ends inside the supplied memory. -/
theorem arenaHi_le (base size : Nat) (h : 64 ≤ usable0 size) :
    arenaHi base size ≤ base + size := by
  have h1 : base + mkOff ≤ arenaLo base size :=
    le_align_up (base + mkOff) (pow2 (maxOrderOf size)) (pow2_pos _)
  have h2 : arenaLo base size = base + mkOff + alignPad base size := by
    unfold alignPad
    omega
  have h3 : usableLen base size ≤ usable0 size - alignPad base size := by
    unfold usableLen
    omega
  have h4 := alignPad_lt base size h
  obtain ⟨-, -, h5, -⟩ := maxOrderOf_facts size h
  have hu : usable0 size = size - mkOff := rfl
  unfold arenaHi
  omega

theorem mem_list_remove : ∀ {l : List Nat} {b a : Nat}, a ∈ list_remove l b → a ∈ l
  | [], b, a, h => h
  | x :: rest, b, a, h => by
    rw [show list_remove (x :: rest) b =
      if x = b then rest else x :: list_remove rest b from rfl] at h
    by_cases hx : x = b
    · rw [if_pos hx] at h
      exact List.mem_cons_of_mem _ h
    · rw [if_neg hx] at h
      rcases List.mem_cons.mp h with rfl | h
      · exact List.mem_cons_self _ _
      · exact List.mem_cons_of_mem _ (mem_list_remove h)

theorem mem_removeAt : ∀ {l : List (Nat × Nat)} {b : Nat} {x : Nat × Nat},
    x ∈ removeAt l b → x ∈ l
  | [], b, x, h => h
  | (c, v) :: rest, b, x, h => by
    rw [show removeAt ((c, v) :: rest) b =
      if c = b then rest else (c, v) :: removeAt rest b from rfl] at h
    by_cases hc : c = b
    · rw [if_pos hc] at h
      exact List.mem_cons_of_mem _ h
    · rw [if_neg hc] at h
      rcases List.mem_cons.mp h with rfl | h
      · exact List.mem_cons_self _ _
      · exact List.mem_cons_of_mem _ (mem_removeAt h)

/-! ### The buddy alignment invariant (offsets from `A->base`) -/

/-- The lower of a block and its XOR-buddy is aligned to the next order. -/
theorem min_xor_pow2_dvd (k r : Nat) (h : pow2 k ∣ r) :
    pow2 (k + 1) ∣ min (r ^^^ pow2 k) r := by
  obtain ⟨q, rfl⟩ := h
  have hp := pow2_pos k
  have hdiv : pow2 k * q / pow2 k = q := Nat.mul_div_cancel_left q hp
  rw [xor_pow2_eq, hdiv]
  by_cases hc : q % 2 = 0
  · rw [if_pos hc, Nat.min_eq_right (Nat.le_add_right _ _)]
    obtain ⟨Q, rfl⟩ : ∃ Q, q = 2 * Q := ⟨q / 2, by omega⟩
    exact ⟨Q, by rw [pow2_succ]; ring⟩
  · rw [if_neg hc, Nat.min_eq_left (Nat.sub_le _ _)]
    obtain ⟨Q, rfl⟩ : ∃ Q, q = 2 * Q + 1 := ⟨q / 2, by omega⟩
    refine ⟨Q, ?_⟩
    have hx : pow2 k * (2 * Q + 1) = 2 * pow2 k * Q + pow2 k := by ring
    rw [pow2_succ]
    omega

/-- Every block the merge loop records keeps a base-relative offset that is
a multiple of its order's block size. -/
theorem freeLoopGo_align (base maxo : Nat) :
    ∀ (fuel : Nat) (fl : Nat → List Nat) (block k : Nat),
    base ≤ block → pow2 k ∣ (block - base) →
    (∀ j a, a ∈ fl j → base ≤ a ∧ pow2 j ∣ (a - base)) →
    ∀ j a, a ∈ freeLoopGo base maxo fuel fl block k j → base ≤ a ∧ pow2 j ∣ (a - base)
  | 0, fl, block, k, hb, hd, hfl, j, a, ha => hfl j a ha
  | fuel + 1, fl, block, k, hb, hd, hfl, j, a, ha => by
    have heq : freeLoopGo base maxo (fuel + 1) fl block k =
        (if (fl k).contains (base + ((block - base) ^^^ pow2 k)) then
           (if maxo < k + 1 then
              listsSet (listsSet fl k (list_remove (fl k) (base + ((block - base) ^^^ pow2 k)))) k
                (min (base + ((block - base) ^^^ pow2 k)) block ::
                  listsSet fl k (list_remove (fl k) (base + ((block - base) ^^^ pow2 k))) k)
            else
              freeLoopGo base maxo fuel
                (listsSet fl k (list_remove (fl k) (base + ((block - base) ^^^ pow2 k))))
                (min (base + ((block - base) ^^^ pow2 k)) block) (k + 1))
         else listsSet fl k (block :: fl k)) := rfl
    rw [heq] at ha
    set buddy := base + ((block - base) ^^^ pow2 k) with hbuddy
    have hmin : min buddy block = base + min ((block - base) ^^^ pow2 k) (block - base) := by
      have hblock : block = base + (block - base) := by omega
      rw [hbuddy]
      omega
    have hmin_le : base ≤ min buddy block := by omega
    have hmin_dvd : pow2 (k + 1) ∣ (min buddy block - base) := by
      rw [hmin, Nat.add_sub_cancel_left]
      exact min_xor_pow2_dvd k (block - base) hd
    have hfl' : ∀ j a, a ∈ listsSet fl k (list_remove (fl k) buddy) j →
        base ≤ a ∧ pow2 j ∣ (a - base) := by
      intro j a ha
      by_cases hj : j = k
      · subst hj
        rw [listsSet_at] at ha
        exact hfl j a (mem_list_remove ha)
      · rw [listsSet_ne _ _ hj] at ha
        exact hfl j a ha
    by_cases hc : (fl k).contains buddy
    · rw [if_pos hc] at ha
      by_cases hov : maxo < k + 1
      · rw [if_pos hov] at ha
        by_cases hj : j = k
        · subst hj
          rw [listsSet_at] at ha
          rcases List.mem_cons.mp ha with rfl | ha
          · exact ⟨hmin_le, dvd_trans (pow2_dvd_pow2 (by omega)) hmin_dvd⟩
          · exact hfl' j a ha
        · rw [listsSet_ne _ _ hj] at ha
          exact hfl' j a ha
      · rw [if_neg hov] at ha
        exact freeLoopGo_align base maxo fuel _ _ (k + 1) hmin_le hmin_dvd hfl' j a ha
    · rw [if_neg hc] at ha
      by_cases hj : j = k
      · subst hj
        rw [listsSet_at] at ha
        rcases List.mem_cons.mp ha with rfl | ha
        · exact ⟨hb, hd⟩
        · exact hfl j a ha
      · rw [listsSet_ne _ _ hj] at ha
        exact hfl j a ha

/-- Which lists the split loop touches: a member is either an original list
member or one of the split-off upper halves. -/
theorem mem_splitDownGo (block k : Nat) :
    ∀ (d : Nat) (fl : Nat → List Nat) (j a : Nat),
    a ∈ splitDownGo block k d fl j →
    a ∈ fl j ∨ ∃ i, i < d ∧ j = k + i ∧ a = block + pow2 (k + i)
  | 0, fl, j, a, h => Or.inl h
  | d + 1, fl, j, a, h => by
    rw [show splitDownGo block k (d + 1) fl =
      splitDownGo block k d (listsSet fl (k + d) ((block + pow2 (k + d)) :: fl (k + d)))
      from rfl] at h
    rcases mem_splitDownGo block k d _ j a h with h | ⟨i, hi, rfl, rfl⟩
    · by_cases hj : j = k + d
      · subst hj
        rw [listsSet_at] at h
        rcases List.mem_cons.mp h with rfl | h
        · exact Or.inr ⟨d, by omega, rfl, rfl⟩
        · exact Or.inl h
      · rw [listsSet_ne _ _ hj] at h
        exact Or.inl h
    · exact Or.inr ⟨i, by omega, rfl, rfl⟩

/-- Base-relative buddy alignment: every recorded block (free or live) of
order `k` starts `a multiple of 2^k` bytes past `A->base`. -/
def Aligned (st : State) : Prop :=
  ∀ x ∈ blocksOf st, st.base ≤ x.1 ∧ pow2 x.2 ∣ (x.1 - st.base)

theorem Aligned_alloc (st : State) (n : Nat) (h : Aligned st) :
    Aligned (allocator_alloc st n).2 := by
  rcases alloc_characterization st n with ⟨-, hst⟩ | ⟨node, rest, -, hk, hck, hcm, hfl, hres⟩
  · rw [hst]
    exact h
  · rw [hres]
    have hnode : (node, findCurGo st.free_lists st.max_order (st.max_order + 2)
        (order_for n st.min_order)) ∈ blocksOf st := by
      refine List.mem_append_left _ (mem_blocksUpTo.mpr ⟨by omega, ?_⟩)
      rw [hfl]
      exact List.mem_cons_self _ _
    obtain ⟨hnb, hnd⟩ := h _ hnode
    simp only at hnb hnd
    intro x hx
    simp only at hx ⊢
    rcases List.mem_append.mp hx with hx | hx
    · obtain ⟨hx2, hx1⟩ := mem_blocksUpTo.mp hx
      rcases mem_splitDownGo node (order_for n st.min_order) _ _ _ _ hx1
        with hmem | ⟨i, hi, hji, hai⟩
      · by_cases hj : x.2 = findCurGo st.free_lists st.max_order (st.max_order + 2)
            (order_for n st.min_order)
        · rw [hj, listsSet_at] at hmem
          have : (x.1, x.2) ∈ blocksOf st := by
            refine List.mem_append_left _ (mem_blocksUpTo.mpr ⟨by omega, ?_⟩)
            rw [hj, hfl]
            exact List.mem_cons_of_mem _ hmem
          exact h _ this
        · rw [listsSet_ne _ _ hj] at hmem
          exact h (x.1, x.2) (List.mem_append_left _ (mem_blocksUpTo.mpr ⟨hx2, hmem⟩))
      · constructor
        · omega
        · rw [hji, hai]
          have hd1 : pow2 (order_for n st.min_order + i) ∣ (node - st.base) :=
            dvd_trans (pow2_dvd_pow2 (by omega)) hnd
          have hd2 : node + pow2 (order_for n st.min_order + i) - st.base =
              (node - st.base) + pow2 (order_for n st.min_order + i) := by omega
          rw [hd2]
          exact Nat.dvd_add hd1 dvd_rfl
    · rcases List.mem_cons.mp hx with rfl | hx
      · exact ⟨hnb, dvd_trans (pow2_dvd_pow2 hck) hnd⟩
      · exact h x (List.mem_append_right _ hx)

theorem Aligned_free (st : State) (p : Nat) (h : Aligned st)
    (hab : ∀ j, st.max_order < j → st.free_lists j = []) :
    Aligned (allocator_free st p) := by
  have heq : allocator_free st p =
      match lookupAt st.live (p - tagSize) with
      | none => st
      | some k =>
        { st with live := removeAt st.live (p - tagSize),
                  free_lists := freeLoopGo st.base st.max_order (st.max_order + 2)
                    st.free_lists (p - tagSize) k } := rfl
  rw [heq]
  cases hl : lookupAt st.live (p - tagSize) with
  | none => exact h
  | some k =>
    have hmem : (p - tagSize, k) ∈ blocksOf st :=
      List.mem_append_right _ (lookupAt_mem hl)
    obtain ⟨hpb, hpd⟩ := h _ hmem
    simp only at hpb hpd
    have hfl0 : ∀ j a, a ∈ st.free_lists j → st.base ≤ a ∧ pow2 j ∣ (a - st.base) := by
      intro j a ha
      by_cases hj : j ≤ st.max_order
      · exact h (a, j) (List.mem_append_left _ (mem_blocksUpTo.mpr ⟨by omega, ha⟩))
      · rw [hab j (by omega)] at ha
        exact absurd ha (List.not_mem_nil a)
    intro x hx
    simp only at hx ⊢
    rcases List.mem_append.mp hx with hx | hx
    · obtain ⟨hx2, hx1⟩ := mem_blocksUpTo.mp hx
      exact freeLoopGo_align st.base st.max_order (st.max_order + 2) st.free_lists
        (p - tagSize) k hpb hpd hfl0 x.2 x.1 hx1
    · exact h x (List.mem_append_right _ (mem_removeAt hx))

theorem Aligned_run (lo hi : Nat) (ops : List Op) : ∀ st : State,
    Inv lo hi st → Aligned st → Aligned (run st ops) := by
  induction ops with
  | nil => exact fun _ _ h => h
  | cons op ops ih =>
    intro st hInv h
    show Aligned (run (step st op) ops)
    refine ih _ (Inv_step lo hi st op hInv).1 ?_
    cases op with
    | alloc n => exact Aligned_alloc st n h
    | free p => exact Aligned_free st p h hInv.2.1

/-- With the caller's memory aligned to the maximum block size, the freshly
created allocator satisfies the base-relative alignment invariant. -/
theorem Aligned_create (base size : Nat) (st : State)
    (hdvd : pow2 (maxOrderOf size) ∣ base)
    (h : allocator_create base size = some st) : Aligned st := by
  have h64 : 64 ≤ usable0 size := by
    by_contra hlt
    push_neg at hlt
    rw [(create_spec base size).1.mpr hlt] at h
    exact Option.noConfusion h
  have hsome := (create_spec base size).2 h64
  rw [hsome] at h
  obtain rfl := Option.some.inj h
  have hlo : pow2 (maxOrderOf size) ∣ arenaLo base size := align_up_dvd _ _
  have hble : base ≤ arenaLo base size := by
    have := le_align_up (base + mkOff) (pow2 (maxOrderOf size)) (pow2_pos _)
    unfold arenaLo
    omega
  have hlodiff : pow2 (maxOrderOf size) ∣ (arenaLo base size - base) :=
    Nat.dvd_sub' hlo hdvd
  intro x hx
  simp only [blocksOf] at hx
  rw [List.append_nil] at hx
  obtain ⟨hx2, hx1⟩ := mem_blocksUpTo.mp hx
  simp only at hx1 hx2 ⊢
  by_cases hj : x.2 = maxOrderOf size
  · rw [hj, listsSet_at] at hx1
    obtain ⟨i, hi, hxi⟩ := seedGo_mem.mp hx1
    constructor
    · omega
    · rw [hj, hxi]
      rw [show arenaLo base size + i * pow2 (maxOrderOf size) - base =
        (arenaLo base size - base) + i * pow2 (maxOrderOf size) by omega]
      exact Nat.dvd_add hlodiff (Dvd.dvd.mul_left dvd_rfl i)
  · rw [listsSet_ne _ _ hj] at hx1
    exact absurd hx1 (List.not_mem_nil _)

/-! ### Success / failure characterization of `alloc` (returned pointer) -/

/-- `alloc` fails exactly on a zero request, an oversized request, or when
every list of sufficient order up to `max_order` is empty; on success the
returned pointer is `tagSize` past the start of a block recorded live whose
size class covers the request plus its tag. -/
theorem mk_alloc_spec (st : State) (n : Nat) :
    ((allocator_alloc st n).1 = none ↔
      (n = 0 ∨ st.max_order < order_for n st.min_order ∨
        ∀ j, order_for n st.min_order ≤ j → j ≤ st.max_order → st.free_lists j = [])) ∧
    (∀ p, (allocator_alloc st n).1 = some p →
      ∃ node k, p = node + tagSize ∧ n + tagSize ≤ pow2 k ∧
        (allocator_alloc st n).2.live = (node, k) :: st.live) := by
  have hcur := findCurGo_spec st.free_lists st.max_order (st.max_order + 2)
    (order_for n st.min_order) (by omega)
  obtain ⟨hc1, hc2, hc3⟩ := hcur
  have heq : allocator_alloc st n =
      (if n = 0 then (none, st)
       else if st.max_order < order_for n st.min_order then (none, st)
       else if st.max_order <
           findCurGo st.free_lists st.max_order (st.max_order + 2) (order_for n st.min_order)
         then (none, st)
       else
         match st.free_lists (findCurGo st.free_lists st.max_order (st.max_order + 2)
             (order_for n st.min_order)) with
         | [] => (none, st)
         | node :: rest =>
           (some (node + tagSize),
            { st with
                free_lists := splitDownGo node (order_for n st.min_order)
                  (findCurGo st.free_lists st.max_order (st.max_order + 2)
                     (order_for n st.min_order) - order_for n st.min_order)
                  (listsSet st.free_lists
                    (findCurGo st.free_lists st.max_order (st.max_order + 2)
                      (order_for n st.min_order)) rest),
                live := (node, order_for n st.min_order) :: st.live })) := rfl
  rw [heq]
  by_cases h0 : n = 0
  · rw [if_pos h0]
    exact ⟨by simp [h0], fun p hp => by simp at hp⟩
  rw [if_neg h0]
  by_cases h1 : st.max_order < order_for n st.min_order
  · rw [if_pos h1]
    exact ⟨by simp [h0, h1], fun p hp => by simp at hp⟩
  rw [if_neg h1]
  by_cases h2 : st.max_order <
      findCurGo st.free_lists st.max_order (st.max_order + 2) (order_for n st.min_order)
  · rw [if_pos h2]
    refine ⟨⟨fun _ => Or.inr (Or.inr ?_), fun _ => rfl⟩, fun p hp => by simp at hp⟩
    intro j hj1 hj2
    exact hc2 j hj1 (by omega)
  rw [if_neg h2]
  cases hfl : st.free_lists (findCurGo st.free_lists st.max_order (st.max_order + 2)
      (order_for n st.min_order)) with
  | nil => exact absurd (hc3 (by omega)) (by simp [hfl])
  | cons node rest =>
    constructor
    · simp only
      constructor
      · intro hcon
        exact absurd hcon (by simp)
      · rintro (h | h | h)
        · exact absurd h h0
        · exact absurd h h1
        · rw [h _ hc1 (by omega)] at hfl
          exact absurd hfl (by simp)
    · intro p hp
      simp only [Option.some.injEq] at hp
      refine ⟨node, order_for n st.min_order, hp.symm, ?_, rfl⟩
      exact (order_for_spec n st.min_order).2.1

/-! ### One merge round of the free loop -/

/-- Freeing a block whose exact XOR-buddy is free at the same order (and
whose next-order buddy is not) removes the buddy and leaves one block — the
lower of the two — on the next order's list. -/
theorem buddy_merge (base maxo fuel : Nat) (fl : Nat → List Nat) (block k : Nat)
    (hk : k < maxo) (hfuel : 2 ≤ fuel)
    (hbud : (base + ((block - base) ^^^ pow2 k)) ∈ fl k)
    (hno : ¬ ((base + ((min (base + ((block - base) ^^^ pow2 k)) block - base) ^^^
        pow2 (k + 1))) ∈ fl (k + 1))) :
    freeLoopGo base maxo fuel fl block k =
      listsSet (listsSet fl k (list_remove (fl k) (base + ((block - base) ^^^ pow2 k))))
        (k + 1)
        (min (base + ((block - base) ^^^ pow2 k)) block :: fl (k + 1)) := by
  obtain ⟨f, rfl⟩ : ∃ f, fuel = f + 1 + 1 := ⟨fuel - 2, by omega⟩
  have heq : freeLoopGo base maxo (f + 1 + 1) fl block k =
      (if (fl k).contains (base + ((block - base) ^^^ pow2 k)) then
         (if maxo < k + 1 then
            listsSet (listsSet fl k (list_remove (fl k) (base + ((block - base) ^^^ pow2 k)))) k
              (min (base + ((block - base) ^^^ pow2 k)) block ::
                listsSet fl k (list_remove (fl k) (base + ((block - base) ^^^ pow2 k))) k)
          else
            freeLoopGo base maxo (f + 1)
              (listsSet fl k (list_remove (fl k) (base + ((block - base) ^^^ pow2 k))))
              (min (base + ((block - base) ^^^ pow2 k)) block) (k + 1))
       else listsSet fl k (block :: fl k)) := rfl
  rw [heq, if_pos (by exact contains_iff_mem.mpr hbud), if_neg (show ¬ maxo < k + 1 by omega)]
  set fl' := listsSet fl k (list_remove (fl k) (base + ((block - base) ^^^ pow2 k))) with hfl'
  set blockm := min (base + ((block - base) ^^^ pow2 k)) block with hblockm
  have heq2 : freeLoopGo base maxo (f + 1) fl' blockm (k + 1) =
      (if (fl' (k + 1)).contains (base + ((blockm - base) ^^^ pow2 (k + 1))) then
         (if maxo < k + 1 + 1 then
            listsSet (listsSet fl' (k + 1)
                (list_remove (fl' (k + 1)) (base + ((blockm - base) ^^^ pow2 (k + 1))))) (k + 1)
              (min (base + ((blockm - base) ^^^ pow2 (k + 1))) blockm ::
                listsSet fl' (k + 1)
                  (list_remove (fl' (k + 1)) (base + ((blockm - base) ^^^ pow2 (k + 1)))) (k + 1))
          else
            freeLoopGo base maxo f
              (listsSet fl' (k + 1)
                (list_remove (fl' (k + 1)) (base + ((blockm - base) ^^^ pow2 (k + 1)))))
              (min (base + ((blockm - base) ^^^ pow2 (k + 1))) blockm) (k + 1 + 1))
       else listsSet fl' (k + 1) (blockm :: fl' (k + 1))) := rfl
  have hfl1 : fl' (k + 1) = fl (k + 1) := listsSet_ne _ _ (by omega)
  rw [heq2, hfl1]
  rw [if_neg (show ¬ ((fl (k + 1)).contains
    (base + ((blockm - base) ^^^ pow2 (k + 1))) = true) from
    fun hc => hno (contains_iff_mem.mp hc))]

end MK

/-! ## The specification's claims -/

/-! ### Concrete states used by witnesses and counterexamples -/

/-- The buddy allocator built by `allocator_create(mem, 8192)` with the
descriptor at address 0: `max_order = 12`, one 4096-byte top block at the
aligned arena start 4096. -/
def mkSt8192 : MK.State :=
  { base := 0, size := 8192, min_order := 4, max_order := 12,
    free_lists := MK.listsSet (fun _ => []) 12 (MK.seedGo 4096 12 1), live := [] }

/-- The buddy allocator built by `allocator_create(mem, 624)` with the
descriptor at address 16 — a 16-byte-aligned but not 64-byte-aligned
arena start: `max_order = 6`, one 64-byte top block at 576. -/
def st624 : MK.State :=
  { base := 16, size := 624, min_order := 4, max_order := 6,
    free_lists := MK.listsSet (fun _ => []) 6 (MK.seedGo 576 6 1), live := [] }

/-- A call sequence on `st624` (all frees use pointers returned by the
preceding allocs): three order-4 allocations and two frees whose XOR-buddy
match — computed relative to `A->base = 16`, not the aligned arena start
576 — merges two blocks into a misaligned order-5 block. -/
def ops624 : List MK.Op :=
  [MK.Op.alloc 14, MK.Op.alloc 14, MK.Op.alloc 14, MK.Op.free 610, MK.Op.free 594]

/-- The buddy allocator built by `allocator_create(mem, 528 + 2^22)` with
the descriptor at address 0: `max_order` capped at 20 and three 1MB top
blocks seeded. -/
def mkBig : MK.State :=
  { base := 0, size := 528 + 2 ^ 22, min_order := 4, max_order := 20,
    free_lists := MK.listsSet (fun _ => []) 20 (MK.seedGo (2 ^ 20) 20 3), live := [] }

/-- Two free lists for exercising one merge round of the buddy free loop:
a single order-0 block at address 1 (the XOR-buddy of address 0). -/
def flC3 : Nat → List Nat := fun j => if j = 0 then [1] else []

/-- A free-list allocator state with two live adjacent blocks at 100 and
150 and free blocks strictly before and strictly after the pair. -/
def c6st : FL.State :=
  { size := 1000, freeList := [(24, 40), (500, 476)],
    live := [(100, 50), (150, 50)] }

/-! ### C1 -/

/-- C1: for both allocators, after any create/alloc/free sequence, the live
regions returned by `alloc` are pairwise non-overlapping, never overlap the
allocator's own metadata, and each lies fully inside the arena. -/
theorem claim_C1 (size : Nat) (hsz : FL.flOff < size) (fops : List FL.Op)
    (mbase msize : Nat) (mst : MK.State)
    (hmk : MK.allocator_create mbase msize = some mst) (mops : List MK.Op) :
    ((FL.run (FL.allocator_create size) fops).live.Pairwise DisjB ∧
      ∀ b ∈ (FL.run (FL.allocator_create size) fops).live,
        FL.flOff ≤ b.1 ∧ b.1 + b.2 ≤ size) ∧
    ((MK.run mst mops).live.Pairwise MK.DisjR ∧
      ∀ x ∈ (MK.run mst mops).live,
        mbase + MK.sizeofAllocator ≤ x.1 ∧ x.1 + MK.pow2 x.2 ≤ mbase + msize) := by
  constructor
  · obtain ⟨hW, hP, -, -⟩ :=
      FL.WF_run fops (FL.allocator_create size) (FL.WF_create size hsz)
    have hsize : (FL.run (FL.allocator_create size) fops).size = size :=
      FL.run_size fops (FL.allocator_create size)
    constructor
    · exact (List.pairwise_append.mp hP).2.1
    · intro b hb
      obtain ⟨h1, h2, -⟩ := hW b (List.mem_append_right _ hb)
      rw [hsize] at h2
      exact ⟨h1, h2⟩
  · have h64 : 64 ≤ MK.usable0 msize := by
      by_contra hlt
      push_neg at hlt
      rw [(MK.create_spec mbase msize).1.mpr hlt] at hmk
      exact Option.noConfusion hmk
    obtain ⟨hInv0, -, -, -, -, -⟩ := MK.Inv_create mbase msize mst hmk
    obtain ⟨hInv, -, -⟩ :=
      MK.Inv_run (MK.arenaLo mbase msize) (MK.arenaHi mbase msize) mops mst hInv0
    obtain ⟨-, -, hG, hP⟩ := hInv
    have hlo := MK.arenaLo_ge mbase msize
    have hhi := MK.arenaHi_le mbase msize h64
    constructor
    · have hP' : (MK.blocksUpTo (MK.run mst mops).free_lists
          ((MK.run mst mops).max_order + 1) ++ (MK.run mst mops).live).Pairwise
          MK.DisjR := hP
      exact (List.pairwise_append.mp hP').2.1
    · intro x hx
      obtain ⟨-, -, hg3, hg4, -⟩ := hG x (List.mem_append_right _ hx)
      exact ⟨by omega, by omega⟩

theorem claim_C1_witness :
    FL.flOff < 4096 ∧ MK.allocator_create 0 8192 = some mkSt8192 ∧
    (((FL.run (FL.allocator_create 4096) [FL.Op.alloc 100]).live.Pairwise DisjB ∧
      ∀ b ∈ (FL.run (FL.allocator_create 4096) [FL.Op.alloc 100]).live,
        FL.flOff ≤ b.1 ∧ b.1 + b.2 ≤ 4096) ∧
     ((MK.run mkSt8192 [MK.Op.alloc 20]).live.Pairwise MK.DisjR ∧
      ∀ x ∈ (MK.run mkSt8192 [MK.Op.alloc 20]).live,
        0 + MK.sizeofAllocator ≤ x.1 ∧ x.1 + MK.pow2 x.2 ≤ 0 + 8192)) :=
  ⟨by decide, rfl,
   claim_C1 4096 (by decide) [FL.Op.alloc 100] 0 8192 mkSt8192 rfl [MK.Op.alloc 20]⟩

/-! ### C2 -/

/-- C2 as stated is false: a precondition-respecting trace on a buddy
allocator with several top-order blocks loses a megabyte of free bytes to
the over-`max_order` merge (`k++` past `max_order` files a 2MB merged block
on the 1MB list), so the free + live byte total is not conserved. -/
theorem claim_C2_counterexample :
    MK.allocator_create 0 (528 + 2 ^ 22) = some mkBig ∧
    MK.validB mkBig [MK.Op.alloc (2 ^ 20 - 2), MK.Op.free (3 * 2 ^ 20 + 2)] = true ∧
    (MK.allocator_alloc mkBig (2 ^ 20 - 2)).1 = some (3 * 2 ^ 20 + 2) ∧
    MK.sumR (MK.blocksOf mkBig) = 3 * 2 ^ 20 ∧
    (MK.run mkBig [MK.Op.alloc (2 ^ 20 - 2), MK.Op.free (3 * 2 ^ 20 + 2)]).live = [] ∧
    MK.sumR (MK.blocksOf
      (MK.run mkBig [MK.Op.alloc (2 ^ 20 - 2), MK.Op.free (3 * 2 ^ 20 + 2)]))
      = 2 * 2 ^ 20 :=
  ⟨rfl, rfl, rfl, rfl, rfl, rfl⟩

/-- C2, amended: byte conservation holds unconditionally for the free-list
allocator (free + live block sizes plus the descriptor overhead equal the
arena size), and for the buddy allocator whenever the trimmed arena is at
most one maximum-order block long. -/
theorem claim_C2 (size : Nat) (hsz : FL.flOff < size) (fops : List FL.Op)
    (mbase msize : Nat) (mst : MK.State)
    (hmk : MK.allocator_create mbase msize = some mst)
    (hone : MK.usableLen mbase msize ≤ MK.pow2 (MK.maxOrderOf msize))
    (mops : List MK.Op) :
    (sumSz (FL.run (FL.allocator_create size) fops).freeList +
      sumSz (FL.run (FL.allocator_create size) fops).live + FL.flOff = size) ∧
    MK.sumR (MK.blocksOf (MK.run mst mops)) = MK.usableLen mbase msize := by
  constructor
  · obtain ⟨-, -, -, hsum⟩ :=
      FL.WF_run fops (FL.allocator_create size) (FL.WF_create size hsz)
    rw [FL.run_size fops (FL.allocator_create size)] at hsum
    exact hsum
  · obtain ⟨hInv0, -, -, -, hmax, hsum0⟩ := MK.Inv_create mbase msize mst hmk
    obtain ⟨-, -, hcons⟩ :=
      MK.Inv_run (MK.arenaLo mbase msize) (MK.arenaHi mbase msize) mops mst hInv0
    rw [hcons ?_, hsum0]
    rw [hmax]
    show MK.arenaLo mbase msize + MK.usableLen mbase msize ≤ _
    omega

theorem claim_C2_witness :
    FL.flOff < 4096 ∧ MK.allocator_create 0 8192 = some mkSt8192 ∧
    MK.usableLen 0 8192 ≤ MK.pow2 (MK.maxOrderOf 8192) ∧
    ((sumSz (FL.run (FL.allocator_create 4096) [FL.Op.alloc 100]).freeList +
       sumSz (FL.run (FL.allocator_create 4096) [FL.Op.alloc 100]).live + FL.flOff
       = 4096) ∧
     MK.sumR (MK.blocksOf (MK.run mkSt8192 [MK.Op.alloc 20])) = MK.usableLen 0 8192) :=
  ⟨by decide, rfl, by decide,
   claim_C2 4096 (by decide) [FL.Op.alloc 100] 0 8192 mkSt8192 rfl (by decide)
     [MK.Op.alloc 20]⟩

/-! ### C3 -/

/-- C3: the buddy of an order-`k` block is at `block XOR 2^k` relative to
the arena base, and freeing a block whose exact buddy is free (in either
order — the hypothesis is symmetric in the two buddies) removes the buddy
and leaves exactly one block at the next order up; concretely, with
`max_order = 12` and `min_order = 4`, `alloc(20)` returns an order-5 block
and freeing it restores exactly one free block at order 12. -/
theorem claim_C3 (base maxo fuel : Nat) (fl : Nat → List Nat) (block k : Nat)
    (hk : k < maxo) (hfuel : 2 ≤ fuel)
    (hbud : (base + ((block - base) ^^^ MK.pow2 k)) ∈ fl k)
    (hno : ¬ ((base + ((min (base + ((block - base) ^^^ MK.pow2 k)) block - base) ^^^
        MK.pow2 (k + 1))) ∈ fl (k + 1))) :
    (MK.freeLoopGo base maxo fuel fl block k =
      MK.listsSet
        (MK.listsSet fl k (MK.list_remove (fl k) (base + ((block - base) ^^^ MK.pow2 k))))
        (k + 1)
        (min (base + ((block - base) ^^^ MK.pow2 k)) block :: fl (k + 1))) ∧
    (MK.allocator_alloc mkSt8192 20).1 = some 4098 ∧
    (MK.run mkSt8192 [MK.Op.alloc 20]).live = [(4096, 5)] ∧
    MK.blocksOf (MK.run mkSt8192 [MK.Op.alloc 20, MK.Op.free 4098]) = [(4096, 12)] :=
  ⟨MK.buddy_merge base maxo fuel fl block k hk hfuel hbud hno, rfl, rfl, by decide⟩

theorem claim_C3_witness :
    (0 < 1 ∧ 2 ≤ 2 ∧ (0 + ((0 - 0) ^^^ MK.pow2 0)) ∈ flC3 0 ∧
      ¬ ((0 + ((min (0 + ((0 - 0) ^^^ MK.pow2 0)) 0 - 0) ^^^ MK.pow2 (0 + 1))) ∈
        flC3 (0 + 1))) ∧
    ((MK.freeLoopGo 0 1 2 flC3 0 0 =
      MK.listsSet
        (MK.listsSet flC3 0 (MK.list_remove (flC3 0) (0 + ((0 - 0) ^^^ MK.pow2 0))))
        (0 + 1)
        (min (0 + ((0 - 0) ^^^ MK.pow2 0)) 0 :: flC3 (0 + 1))) ∧
     (MK.allocator_alloc mkSt8192 20).1 = some 4098 ∧
     (MK.run mkSt8192 [MK.Op.alloc 20]).live = [(4096, 5)] ∧
     MK.blocksOf (MK.run mkSt8192 [MK.Op.alloc 20, MK.Op.free 4098]) = [(4096, 12)]) :=
  ⟨⟨by decide, by decide, by decide, by decide⟩,
   claim_C3 0 1 2 flC3 0 0 (by decide) (by decide) (by decide) (by decide)⟩

/-! ### C4 -/

/-- C4 as stated is false: on an arena whose base pointer is not itself
aligned to the maximum block size (here base 16), a precondition-respecting
trace produces a free order-5 block at 592, whose offset 16 from the
aligned arena base 576 is not a multiple of `2^5` — the XOR is taken
relative to `A->base`, not the aligned arena start. -/
theorem claim_C4_counterexample :
    MK.allocator_create 16 624 = some st624 ∧
    MK.validB st624 ops624 = true ∧
    MK.arenaLo 16 624 = 576 ∧
    (592, 5) ∈ MK.blocksOf (MK.run st624 ops624) ∧
    ¬ (MK.pow2 5 ∣ (592 - MK.arenaLo 16 624)) :=
  ⟨rfl, rfl, rfl, by decide, by decide⟩

/-- C4, amended: when the caller's memory is itself aligned to the maximum
block size, every block of order `k`, free or live, starts at an offset
from the aligned arena base that is a multiple of `2^k`. -/
theorem claim_C4 (base size : Nat) (st : MK.State)
    (hdvd : MK.pow2 (MK.maxOrderOf size) ∣ base)
    (h : MK.allocator_create base size = some st) (ops : List MK.Op) :
    ∀ x ∈ MK.blocksOf (MK.run st ops),
      MK.pow2 x.2 ∣ (x.1 - MK.arenaLo base size) := by
  obtain ⟨hInv0, hbase, -, -, hmax, -⟩ := MK.Inv_create base size st h
  have hAl0 := MK.Aligned_create base size st hdvd h
  have hAl := MK.Aligned_run (MK.arenaLo base size) (MK.arenaHi base size) ops st hInv0 hAl0
  obtain ⟨hInvR, hmaxR, -⟩ :=
    MK.Inv_run (MK.arenaLo base size) (MK.arenaHi base size) ops st hInv0
  intro x hx
  obtain ⟨hxb, hxd⟩ := hAl x hx
  obtain ⟨hrb, -, -, -⟩ := MK.run_fields ops st
  rw [hrb, hbase] at hxb hxd
  obtain ⟨-, -, hG, -⟩ := hInvR
  obtain ⟨-, hx2max, hx1lo, -, -⟩ := hG x hx
  rw [hmaxR, hmax] at hx2max
  have hlo : MK.pow2 (MK.maxOrderOf size) ∣ MK.arenaLo base size := align_up_dvd _ _
  have hble : base ≤ MK.arenaLo base size := by
    have := MK.arenaLo_ge base size
    have hpos : (0 : Nat) < MK.sizeofAllocator := by norm_num [MK.sizeofAllocator]
    omega
  have hdiff : MK.pow2 x.2 ∣ (MK.arenaLo base size - base) :=
    dvd_trans (MK.pow2_dvd_pow2 hx2max) (Nat.dvd_sub' hlo hdvd)
  rw [show x.1 - MK.arenaLo base size =
    (x.1 - base) - (MK.arenaLo base size - base) by omega]
  exact Nat.dvd_sub' hxd hdiff

theorem claim_C4_witness :
    MK.pow2 (MK.maxOrderOf 8192) ∣ 0 ∧ MK.allocator_create 0 8192 = some mkSt8192 ∧
    (∀ x ∈ MK.blocksOf (MK.run mkSt8192 [MK.Op.alloc 20]),
      MK.pow2 x.2 ∣ (x.1 - MK.arenaLo 0 8192)) :=
  ⟨Dvd.intro 0 rfl, rfl,
   claim_C4 0 8192 mkSt8192 (Dvd.intro 0 rfl) rfl [MK.Op.alloc 20]⟩

/-! ### C5 -/

/-- C5's failure condition as stated is false: `allocator_create(mem, 607)`
at base 0 fails (the code's only reachable check is `usable < 64`,
here 63) although the claimed condition does not hold — the usable space
after the (zero) alignment padding is 63 ≥ 16 bytes, one minimum block,
and `max_order` (5) is not below `min_order` (4). -/
theorem claim_C5_counterexample :
    MK.allocator_create 0 607 = none ∧
    MK.usable0 607 - MK.alignPad 0 607 = 63 ∧
    MK.pow2 4 ≤ MK.usable0 607 - MK.alignPad 0 607 ∧
    4 ≤ MK.maxOrderOf 607 :=
  ⟨rfl, rfl, by decide, by decide⟩

/-- C5, amended: `create` computes `min_order = 4`, `max_order` the largest
order whose block fits the usable size capped at 20, aligns the arena up,
trims it down, and seeds the top list with every maximum-order block that
fits — and it fails if and only if the usable size before padding is below
64 bytes (the `max_order < min_order` and padding checks are unreachable). -/
theorem claim_C5 (base size : Nat) :
    (MK.allocator_create base size = none ↔ MK.usable0 size < 64) ∧
    (64 ≤ MK.usable0 size →
      MK.allocator_create base size = some
        { base := base, size := size, min_order := 4, max_order := MK.maxOrderOf size,
          free_lists := MK.listsSet (fun _ => []) (MK.maxOrderOf size)
            (MK.seedGo (MK.arenaLo base size) (MK.maxOrderOf size)
              (MK.usableLen base size / MK.pow2 (MK.maxOrderOf size))),
          live := [] }) :=
  MK.create_spec base size

theorem claim_C5_witness :
    64 ≤ MK.usable0 8192 ∧
    MK.allocator_create 0 8192 = some
      { base := 0, size := 8192, min_order := 4, max_order := MK.maxOrderOf 8192,
        free_lists := MK.listsSet (fun _ => []) (MK.maxOrderOf 8192)
          (MK.seedGo (MK.arenaLo 0 8192) (MK.maxOrderOf 8192)
            (MK.usableLen 0 8192 / MK.pow2 (MK.maxOrderOf 8192))),
        live := [] } :=
  ⟨by decide, (claim_C5 0 8192).2 (by decide)⟩

/-! ### C6 -/

/-- C6: freeing two address-adjacent allocated blocks, in either order,
leaves the same state, with exactly one free block spanning both in place
of the pair; concretely, in a 4096-byte arena, after `alloc(100)`,
`alloc(100)`, `free(first)`, `free(second)` — in either order — the free
list coalesces back into the single original span `(24, 4072)` covering
both allocations' footprint. -/
theorem claim_C6 (st : FL.State) (a s1 s2 : Nat) (pre post : List (Nat × Nat))
    (hfl : st.freeList = pre ++ post)
    (hpre : ∀ c ∈ pre, c.1 + c.2 < a)
    (hpost : ∀ c ∈ post, a + s1 + s2 < c.1)
    (hs1 : 0 < s1)
    (h1 : lookupAt st.live a = some s1)
    (h2 : lookupAt st.live (a + s1) = some s2) :
    (FL.run st [FL.Op.free (a + FL.headerSize), FL.Op.free (a + s1 + FL.headerSize)] =
       FL.run st [FL.Op.free (a + s1 + FL.headerSize), FL.Op.free (a + FL.headerSize)] ∧
     (FL.run st [FL.Op.free (a + FL.headerSize),
        FL.Op.free (a + s1 + FL.headerSize)]).freeList =
       pre ++ (a, s1 + s2) :: post) ∧
    (FL.run (FL.allocator_create 4096)
        [FL.Op.alloc 100, FL.Op.alloc 100, FL.Op.free 48, FL.Op.free 184]).freeList =
      [(24, 4072)] ∧
    (FL.run (FL.allocator_create 4096)
        [FL.Op.alloc 100, FL.Op.alloc 100, FL.Op.free 184, FL.Op.free 48]).freeList =
      [(24, 4072)] ∧
    (FL.allocator_create 4096).freeList = [(24, 4072)] :=
  ⟨FL.free_adjacent_pair st a s1 s2 pre post hfl hpre hpost hs1 h1 h2,
   by decide, by decide, by decide⟩

theorem claim_C6_witness :
    (c6st.freeList = [(24, 40)] ++ [(500, 476)] ∧
     (∀ c ∈ [((24 : Nat), (40 : Nat))], c.1 + c.2 < 100) ∧
     (∀ c ∈ [((500 : Nat), (476 : Nat))], 100 + 50 + 50 < c.1) ∧
     0 < 50 ∧
     lookupAt c6st.live 100 = some 50 ∧
     lookupAt c6st.live (100 + 50) = some 50) ∧
    ((FL.run c6st [FL.Op.free (100 + FL.headerSize),
        FL.Op.free (100 + 50 + FL.headerSize)] =
       FL.run c6st [FL.Op.free (100 + 50 + FL.headerSize),
        FL.Op.free (100 + FL.headerSize)] ∧
      (FL.run c6st [FL.Op.free (100 + FL.headerSize),
        FL.Op.free (100 + 50 + FL.headerSize)]).freeList =
       [(24, 40)] ++ (100, 50 + 50) :: [(500, 476)]) ∧
     (FL.run (FL.allocator_create 4096)
        [FL.Op.alloc 100, FL.Op.alloc 100, FL.Op.free 48, FL.Op.free 184]).freeList =
      [(24, 4072)] ∧
     (FL.run (FL.allocator_create 4096)
        [FL.Op.alloc 100, FL.Op.alloc 100, FL.Op.free 184, FL.Op.free 48]).freeList =
      [(24, 4072)] ∧
     (FL.allocator_create 4096).freeList = [(24, 4072)]) :=
  ⟨⟨rfl, by decide, by decide, by decide, rfl, rfl⟩,
   claim_C6 c6st 100 50 50 [(24, 40)] [(500, 476)] rfl (by decide) (by decide)
     (by decide) rfl rfl⟩

/-! ### C7 -/

/-- C7: the free-list `alloc` is exactly the specification's first-fit:
required size `align_up(size, 16) + 24`, first free block of sufficient
size in list (address) order, split exactly when the remainder can host a
header plus 16 bytes (the tail re-linked in place), otherwise consumed
whole, the chosen block unlinked and recorded live, and the returned
pointer just past the header. -/
theorem claim_C7 (st : FL.State) (size : Nat) :
    FL.allocator_alloc st size = FL.allocFirstFit st size :=
  FL.alloc_eq_firstFit st size

/-! ### C8 -/

/-- C8: for both allocators a failed `alloc` leaves the state completely
unchanged — no partial splitting or any other mutation. -/
theorem claim_C8 (fst : FL.State) (fn : Nat)
    (hf : (FL.allocator_alloc fst fn).1 = none)
    (mst : MK.State) (mn : Nat)
    (hm : (MK.allocator_alloc mst mn).1 = none) :
    (FL.allocator_alloc fst fn).2 = fst ∧ (MK.allocator_alloc mst mn).2 = mst := by
  constructor
  · have heq : FL.allocator_alloc fst fn =
        (if fn = 0 then (none, fst)
         else match FL.allocGo (FL.need fn) fst.freeList with
         | none => (none, fst)
         | some (blk, fl') =>
           (some (blk.1 + FL.headerSize),
            { fst with freeList := fl', live := blk :: fst.live })) := rfl
    rw [heq] at hf ⊢
    by_cases h0 : fn = 0
    · rw [if_pos h0]
    · rw [if_neg h0] at hf ⊢
      cases hgo : FL.allocGo (FL.need fn) fst.freeList with
      | none => rfl
      | some res =>
        obtain ⟨blk, fl'⟩ := res
        rw [hgo] at hf
        exact absurd hf (by simp)
  · rcases MK.alloc_characterization mst mn with ⟨-, hst⟩ | ⟨node, rest, -, -, -, -, -, hres⟩
    · exact hst
    · rw [hres] at hm
      exact absurd hm (by simp)

theorem claim_C8_witness :
    (FL.allocator_alloc (FL.allocator_create 4096) 5000).1 = none ∧
    (MK.allocator_alloc mkSt8192 5000).1 = none ∧
    ((FL.allocator_alloc (FL.allocator_create 4096) 5000).2 = FL.allocator_create 4096 ∧
     (MK.allocator_alloc mkSt8192 5000).2 = mkSt8192) :=
  ⟨rfl, rfl, claim_C8 (FL.allocator_create 4096) 5000 rfl mkSt8192 5000 rfl⟩

/-! ### C9 -/

/-- C9: for both allocators, `alloc` fails exactly when the request is zero
or no free block large enough (of suitable order, for the buddy allocator)
exists; a successful `alloc` returns a pointer just past the header of a
newly live block whose capacity covers the request beyond the header, so
the usable region has at least the requested size. -/
theorem claim_C9 (fst : FL.State) (fn fp : Nat)
    (hf : (FL.allocator_alloc fst fn).1 = some fp)
    (mst : MK.State) (mn mp : Nat)
    (hm : (MK.allocator_alloc mst mn).1 = some mp) :
    (∀ (st : FL.State) (n : Nat), ((FL.allocator_alloc st n).1 = none ↔
        (n = 0 ∨ ∀ b ∈ st.freeList, b.2 < FL.need n))) ∧
    (∃ blk : Nat × Nat, fp = blk.1 + FL.headerSize ∧ fn + FL.headerSize ≤ blk.2 ∧
      (FL.allocator_alloc fst fn).2.live = blk :: fst.live) ∧
    (∀ (st : MK.State) (n : Nat), ((MK.allocator_alloc st n).1 = none ↔
        (n = 0 ∨ st.max_order < MK.order_for n st.min_order ∨
          ∀ j, MK.order_for n st.min_order ≤ j → j ≤ st.max_order →
            st.free_lists j = []))) ∧
    (∃ node k, mp = node + MK.tagSize ∧ mn + MK.tagSize ≤ MK.pow2 k ∧
      (MK.allocator_alloc mst mn).2.live = (node, k) :: mst.live) :=
  ⟨fun st n => (FL.alloc_success_spec st n).1,
   (FL.alloc_success_spec fst fn).2 fp hf,
   fun st n => (MK.mk_alloc_spec st n).1,
   (MK.mk_alloc_spec mst mn).2 mp hm⟩

theorem claim_C9_witness :
    (FL.allocator_alloc (FL.allocator_create 4096) 100).1 = some 48 ∧
    (MK.allocator_alloc mkSt8192 20).1 = some 4098 ∧
    ((∀ (st : FL.State) (n : Nat), ((FL.allocator_alloc st n).1 = none ↔
        (n = 0 ∨ ∀ b ∈ st.freeList, b.2 < FL.need n))) ∧
     (∃ blk : Nat × Nat, 48 = blk.1 + FL.headerSize ∧ 100 + FL.headerSize ≤ blk.2 ∧
       (FL.allocator_alloc (FL.allocator_create 4096) 100).2.live =
         blk :: (FL.allocator_create 4096).live) ∧
     (∀ (st : MK.State) (n : Nat), ((MK.allocator_alloc st n).1 = none ↔
        (n = 0 ∨ st.max_order < MK.order_for n st.min_order ∨
          ∀ j, MK.order_for n st.min_order ≤ j → j ≤ st.max_order →
            st.free_lists j = []))) ∧
     (∃ node k, 4098 = node + MK.tagSize ∧ 20 + MK.tagSize ≤ MK.pow2 k ∧
       (MK.allocator_alloc mkSt8192 20).2.live = (node, k) :: mkSt8192.live)) :=
  ⟨rfl, rfl, claim_C9 (FL.allocator_create 4096) 100 48 rfl mkSt8192 20 4098 rfl⟩

/-! ### C10 -/

/-- C10 as stated is false: on an arena whose base is 16-byte- but not
maximum-block-aligned, a precondition-respecting trace makes `alloc(20)`
return pointer 594 to an order-5 block at 592 whose offset 16 from the
aligned arena base 576 is not a multiple of `2^5` — the returned pointer is
2 bytes past a block start that need not be `2^k`-aligned relative to the
aligned arena base. -/
theorem claim_C10_counterexample :
    MK.allocator_create 16 624 = some st624 ∧
    MK.validB st624 ops624 = true ∧
    (MK.allocator_alloc (MK.run st624 ops624) 20).1 = some 594 ∧
    (MK.allocator_alloc (MK.run st624 ops624) 20).2.live.head? = some (592, 5) ∧
    ¬ (MK.pow2 5 ∣ (592 - MK.arenaLo 16 624)) :=
  ⟨rfl, rfl, rfl, rfl, by decide⟩

/-- C10, amended: every pointer returned by the buddy `alloc` is exactly
`tagSize = 2` bytes past the start of the block recorded live, that start
lies at a multiple of 16 (the minimum block size) from the aligned arena
base — so the returned pointer's offset is `≡ 2 (mod 16)` and never aligned
beyond 2 bytes — and the start is `2^k`-aligned relative to the aligned
arena base whenever the caller's memory base itself is aligned to the
maximum block size. -/
theorem claim_C10 (base size : Nat) (st : MK.State)
    (h : MK.allocator_create base size = some st) (ops : List MK.Op) (n p : Nat)
    (hp : (MK.allocator_alloc (MK.run st ops) n).1 = some p) :
    ∃ node k,
      p = node + MK.tagSize ∧
      MK.arenaLo base size ≤ node ∧
      (node - MK.arenaLo base size) % 16 = 0 ∧
      (p - MK.arenaLo base size) % 16 = MK.tagSize ∧
      (MK.pow2 (MK.maxOrderOf size) ∣ base →
        MK.pow2 k ∣ (node - MK.arenaLo base size)) ∧
      (MK.allocator_alloc (MK.run st ops) n).2.live =
        (node, k) :: (MK.run st ops).live := by
  obtain ⟨hInv0, hbase, -, hmin, hmax, -⟩ := MK.Inv_create base size st h
  obtain ⟨hInvR, hmaxR, -⟩ :=
    MK.Inv_run (MK.arenaLo base size) (MK.arenaHi base size) ops st hInv0
  obtain ⟨node, k, hpe, hnk, hlive⟩ := (MK.mk_alloc_spec (MK.run st ops) n).2 p hp
  have hInv2 := (MK.Inv_alloc (MK.arenaLo base size) (MK.arenaHi base size)
    (MK.run st ops) n hInvR).1
  obtain ⟨-, -, hG2, -⟩ := hInv2
  have hmem : (node, k) ∈ MK.blocksOf (MK.allocator_alloc (MK.run st ops) n).2 := by
    refine List.mem_append_right _ ?_
    rw [hlive]
    exact List.mem_cons_self _ _
  obtain ⟨-, hk2, hlo1, -, hdv16⟩ := hG2 (node, k) hmem
  simp only at hk2 hlo1 hdv16
  obtain ⟨sb, ss, sm, sx⟩ := MK.step_fields (MK.run st ops) (MK.Op.alloc n)
  obtain ⟨rb, rs, rm, rx⟩ := MK.run_fields ops st
  have hm2 : (MK.allocator_alloc (MK.run st ops) n).2.min_order = 4 := by
    rw [show (MK.allocator_alloc (MK.run st ops) n).2 =
      MK.step (MK.run st ops) (MK.Op.alloc n) from rfl, sm, rm, hmin]
  have hx2 : (MK.allocator_alloc (MK.run st ops) n).2.max_order = MK.maxOrderOf size := by
    rw [show (MK.allocator_alloc (MK.run st ops) n).2 =
      MK.step (MK.run st ops) (MK.Op.alloc n) from rfl, sx, rx, hmax]
  rw [hm2] at hdv16
  rw [hx2] at hk2
  have h16 : MK.pow2 4 = 16 := rfl
  rw [h16] at hdv16
  obtain ⟨m, hm16⟩ := hdv16
  have ht : MK.tagSize = 2 := rfl
  refine ⟨node, k, hpe, hlo1, by omega, by rw [hpe, ht]; omega, ?_, hlive⟩
  intro hdvd
  have hAl0 := MK.Aligned_create base size st hdvd h
  have hAl1 := MK.Aligned_run (MK.arenaLo base size) (MK.arenaHi base size) ops st
    hInv0 hAl0
  have hAl2 := MK.Aligned_alloc (MK.run st ops) n hAl1
  obtain ⟨hnb, hnd⟩ := hAl2 (node, k) hmem
  simp only at hnb hnd
  have hb2 : (MK.allocator_alloc (MK.run st ops) n).2.base = base := by
    rw [show (MK.allocator_alloc (MK.run st ops) n).2 =
      MK.step (MK.run st ops) (MK.Op.alloc n) from rfl, sb, rb, hbase]
  rw [hb2] at hnb hnd
  have hloA : MK.pow2 (MK.maxOrderOf size) ∣ MK.arenaLo base size := align_up_dvd _ _
  have hble : base ≤ MK.arenaLo base size := by
    have := MK.arenaLo_ge base size
    have hpos : (0 : Nat) < MK.sizeofAllocator := by norm_num [MK.sizeofAllocator]
    omega
  have hdiff : MK.pow2 k ∣ (MK.arenaLo base size - base) :=
    dvd_trans (MK.pow2_dvd_pow2 hk2) (Nat.dvd_sub' hloA hdvd)
  rw [show node - MK.arenaLo base size =
    (node - base) - (MK.arenaLo base size - base) by omega]
  exact Nat.dvd_sub' hnd hdiff

theorem claim_C10_witness :
    MK.allocator_create 0 8192 = some mkSt8192 ∧
    (MK.allocator_alloc (MK.run mkSt8192 []) 20).1 = some 4098 ∧
    (∃ node k,
      4098 = node + MK.tagSize ∧
      MK.arenaLo 0 8192 ≤ node ∧
      (node - MK.arenaLo 0 8192) % 16 = 0 ∧
      (4098 - MK.arenaLo 0 8192) % 16 = MK.tagSize ∧
      (MK.pow2 (MK.maxOrderOf 8192) ∣ 0 →
        MK.pow2 k ∣ (node - MK.arenaLo 0 8192)) ∧
      (MK.allocator_alloc (MK.run mkSt8192 []) 20).2.live =
        (node, k) :: (MK.run mkSt8192 []).live) :=
  ⟨rfl, rfl, claim_C10 0 8192 mkSt8192 rfl [] 20 4098 rfl⟩

end Lab4

